import Mathlib

/-!
Verification of the intermediate d-DNNF representation and its
clause-insertion pipeline (`IntermediateGraph` in
`src/parser/intermediate_representation.rs`, node model in
`src/ddnnf/node.rs`).

The Rust code is shallowly embedded: the petgraph `StableGraph<TId, ()>`
becomes a kind list plus an edge list (handles are list indices; the code
never removes nodes, so fresh handles are appended), `HashMap`s become
association lists, fallible operations (`unwrap`, slice indexing) return
`Option`, and `rug::Integer` cardinalities become `Nat` (the counts are
nonnegative products/sums of 0 and 1 seeds).  Traversals (`DfsPostOrder`,
`Bfs`) are embedded with an explicit worklist and a fuel argument large
enough for any terminating traversal; a traversal cut short by fuel makes
a later map lookup fail, which mirrors the `unwrap` panic the Rust code
performs on a cyclic graph.  petgraph iterates neighbors in reverse edge
insertion order, which the embedding reproduces.
-/

namespace Ddnnf

/-- Token kinds carried by graph vertices (`c2d_lexer::TId`). -/
inductive TId where
  | TTrue
  | FFalse
  | PositiveLiteral
  | NegativeLiteral
  | And
  | Or
  | Header
deriving DecidableEq

/-- Node kinds of the linearized array (`ddnnf/node.rs::NodeType`). -/
inductive NodeType where
  | And (children : List Nat)
  | Or (children : List Nat)
  | Literal (literal : Int)
  | True
  | False
deriving DecidableEq

/-- Linearized node record (`ddnnf/node.rs::Node`).  The query scratch
fields `marker`, `temp` and `partial_derivative` are omitted: they are
initialized to constants and untouched by the modelled operations. -/
structure Node where
  count : Nat
  parents : List Nat
  ntype : NodeType
deriving DecidableEq

/-- `Node::new_node`. -/
def Node.new_node (count : Nat) (ntype : NodeType) : Node :=
  { count := count, parents := [], ntype := ntype }

/-- `Node::new_and`. -/
def Node.new_and (count : Nat) (children : List Nat) : Node :=
  Node.new_node count (NodeType.And children)

/-- `Node::new_or` (the decision variable argument is discarded by the code). -/
def Node.new_or (_decision_var : Nat) (count : Nat) (children : List Nat) : Node :=
  Node.new_node count (NodeType.Or children)

/-- `Node::new_literal`. -/
def Node.new_literal (literal : Int) : Node :=
  Node.new_node 1 (NodeType.Literal literal)

/-- `Node::new_bool`. -/
def Node.new_bool (b : Bool) : Node :=
  if b then Node.new_node 1 NodeType.True else Node.new_node 0 NodeType.False

/-- Modelled from the spec: `calc_and_count` lives in `parser/mod.rs`, which is
not among the provided sources; per the spec the cardinality of an And node is
the product of its children's counts. -/
def calc_and_count (nodes : List Node) (indices : List Nat) : Nat :=
  (indices.map (fun i => (nodes.getD i (Node.new_bool false)).count)).prod

/-- Modelled from the spec: `calc_or_count` lives in `parser/mod.rs`, which is
not among the provided sources; per the spec the cardinality of an Or node is
the sum of its children's counts. -/
def calc_or_count (nodes : List Node) (indices : List Nat) : Nat :=
  (indices.map (fun i => (nodes.getD i (Node.new_bool false)).count)).sum

/-- Option-valued map over a list, failing when any element fails
(the `unwrap`-per-element loops of the Rust code). -/
def omapM {α β : Type} (f : α → Option β) : List α → Option (List β)
  | [] => some []
  | a :: l =>
    match f a with
    | none => none
    | some b =>
      match omapM f l with
      | none => none
      | some bs => some (b :: bs)

/-- First-match association-list lookup, modelling `HashMap::get`
(new bindings that may overwrite an old key are consed to the front). -/
def alookup {α β : Type} [DecidableEq α] : List (α × β) → α → Option β
  | [], _ => none
  | (k, v) :: rest, a => if k = a then some v else alookup rest a

/-- Update the element at an index, leaving the list unchanged when the
index is out of range (`Vec` indexed assignment is only used in range). -/
def modifyAt {α : Type} : List α → Nat → (α → α) → List α
  | [], _, _ => []
  | a :: l, 0, f => f a :: l
  | a :: l, i + 1, f => a :: modifyAt l i f

/-- Keep the first occurrence of each element, modelling the element set of a
`HashSet` built by insertion. -/
def dedupList {α : Type} [DecidableEq α] : List α → List α
  | [] => []
  | a :: l => if a ∈ dedupList l then dedupList l else a :: dedupList l

/-- The slice of petgraph's `StableGraph<TId, ()>` that the code uses: node
handles are `0, 1, …` in creation order (the code never deletes vertices) and
edges are directed parent→child pairs in insertion order. -/
structure StableGraphM where
  kinds : List TId
  edges : List (Nat × Nat)
deriving DecidableEq

/-- Outgoing neighbors of a vertex; petgraph iterates them in reverse edge
insertion order. -/
def StableGraphM.children (g : StableGraphM) (nx : Nat) : List Nat :=
  ((g.edges.filter (fun e => e.1 = nx)).map (fun e => e.2)).reverse

/-- Incoming neighbors of a vertex, in reverse edge insertion order
(`neighbors_directed(nx, Incoming)`). -/
def StableGraphM.parentsOf (g : StableGraphM) (nx : Nat) : List Nat :=
  ((g.edges.filter (fun e => e.2 = nx)).map (fun e => e.1)).reverse

/-- `IntermediateGraph` (graph, root, literal values, cached literal support). -/
structure IntermediateGraph where
  graph : StableGraphM
  root : Nat
  nx_literals : List (Nat × Int)
  literal_children : List (Nat × List Int)
deriving DecidableEq

/-- Worklist entries of the depth-first post-order traversal. -/
inductive DfsTask where
  | visit (nx : Nat)
  | emit (nx : Nat)
deriving DecidableEq

/-- Fuel bound large enough for any terminating traversal of the graph. -/
def dfsFuel (g : StableGraphM) : Nat :=
  2 * g.edges.length + 2 * g.kinds.length + 4

/-- Worklist implementation of petgraph's `DfsPostOrder`: a vertex is emitted
after all of its unvisited descendants, children explored in neighbor order. -/
def dfsLoop (g : StableGraphM) : Nat → List DfsTask → List Nat → List Nat → List Nat
  | 0, _, _, out => out
  | _ + 1, [], _, out => out
  | fuel + 1, DfsTask.visit nx :: rest, vis, out =>
      if nx ∈ vis then dfsLoop g fuel rest vis out
      else
        dfsLoop g fuel
          ((g.children nx).map DfsTask.visit ++ DfsTask.emit nx :: rest)
          (nx :: vis) out
  | fuel + 1, DfsTask.emit nx :: rest, vis, out => dfsLoop g fuel rest vis (out ++ [nx])

/-- Depth-first post-order of the vertices reachable from `start`. -/
def dfsPostOrder (g : StableGraphM) (start : Nat) : List Nat :=
  dfsLoop g (dfsFuel g) [DfsTask.visit start] [] []

/-- One breadth-first step: enqueue the yet undiscovered children of `nx`
(petgraph's `Bfs` marks vertices discovered when they are pushed). -/
def bfsStep (g : StableGraphM) (nx : Nat) (queue disc : List Nat) : List Nat × List Nat :=
  (g.children nx).foldl
    (fun acc c => if c ∈ acc.2 then acc else (acc.1 ++ [c], c :: acc.2))
    (queue, disc)

/-- Worklist implementation of petgraph's `Bfs` iterator. -/
def bfsLoop (g : StableGraphM) : Nat → List Nat → List Nat → List Nat
  | 0, _, _ => []
  | _ + 1, [], _ => []
  | fuel + 1, nx :: rest, disc =>
      let s := bfsStep g nx rest disc
      nx :: bfsLoop g fuel s.1 s.2

/-- Breadth-first order of the vertices reachable from `start`. -/
def bfs (g : StableGraphM) (start : Nat) : List Nat :=
  bfsLoop g (dfsFuel g) [start] [start]

/-- Append the freshly allocated parent index to each child's parent list
(the `parsed_nodes[i].parents.push(next_indize)` loop of `rebuild`). -/
def pushParents (parsed : List Node) (children : List Nat) (idx : Nat) : List Node :=
  children.foldl
    (fun acc c => modifyAt acc c (fun nd => { nd with parents := nd.parents ++ [idx] }))
    parsed

/-- The body of `IntermediateGraph::rebuild`: walk the post-order vertex list,
translating each vertex into a `Node` whose children are indices of already
emitted nodes.  A failed lookup (`unwrap` in the Rust code) aborts. -/
def rebuildGo (g : IntermediateGraph) :
    List Nat → List (Nat × Nat) → List Node → List (Int × Nat) → List Nat →
    Option (List Node × List (Int × Nat) × List Nat)
  | [], _, parsed, lits, trues => some (parsed, lits, trues)
  | nx :: rest, nd2i, parsed, lits, trues =>
    match omapM (alookup nd2i) (g.graph.children nx) with
    | none => none
    | some neighs =>
      match g.graph.kinds.get? nx with
      | none => none
      | some k =>
        let idx := parsed.length
        match k with
        | TId.PositiveLiteral | TId.NegativeLiteral =>
          match alookup g.nx_literals nx with
          | none => none
          | some lit =>
            rebuildGo g rest ((nx, idx) :: nd2i)
              (parsed ++ [Node.new_literal lit]) ((lit, idx) :: lits) trues
        | TId.And =>
          rebuildGo g rest ((nx, idx) :: nd2i)
            (pushParents parsed neighs idx ++ [Node.new_and (calc_and_count parsed neighs) neighs])
            lits trues
        | TId.Or =>
          rebuildGo g rest ((nx, idx) :: nd2i)
            (pushParents parsed neighs idx ++ [Node.new_or 0 (calc_or_count parsed neighs) neighs])
            lits trues
        | TId.TTrue =>
          rebuildGo g rest ((nx, idx) :: nd2i)
            (parsed ++ [Node.new_bool true]) lits (trues ++ [idx])
        | TId.FFalse =>
          rebuildGo g rest ((nx, idx) :: nd2i)
            (parsed ++ [Node.new_bool false]) lits trues
        | TId.Header => none

/-- `IntermediateGraph::rebuild`. -/
def rebuild (g : IntermediateGraph) (alt_root : Option Nat) :
    Option (List Node × List (Int × Nat) × List Nat) :=
  rebuildGo g (dfsPostOrder g.graph (alt_root.getD g.root)) [] [] [] []

/-- The candidate enumeration loop of `closest_unsplitable_and`: walk the
breadth-first order, keep the And vertices whose cached literal support
contains a literal of the clause (same polarity, `diffs.contains(e)`).
A missing `literal_children` entry is the `unwrap` panic. -/
def candGo (g : IntermediateGraph) (clause : List Int) :
    List Nat → Option (List (Nat × List Int))
  | [] => some []
  | nx :: rest =>
    match g.graph.kinds.get? nx with
    | none => none
    | some TId.And =>
      match alookup g.literal_children nx with
      | none => none
      | some diffs =>
        match candGo g clause rest with
        | none => none
        | some tail =>
          if clause.any (fun e => diffs.contains e) then some ((nx, diffs) :: tail)
          else some tail
    | some _ => candGo g clause rest

/-- The And candidates of a clause, in breadth-first order from the root. -/
def candidatesOf (g : IntermediateGraph) (clause : List Int) :
    Option (List (Nat × List Int)) :=
  candGo g clause (bfs g.graph g.root)

/-- Insertion into a list sorted by descending support size (stable among
equal sizes; `sort_unstable_by_key(Reverse(len))` leaves ties unspecified). -/
def insertDesc (x : Nat × List Int) : List (Nat × List Int) → List (Nat × List Int)
  | [] => [x]
  | y :: ys => if x.2.length ≤ y.2.length then y :: insertDesc x ys else x :: y :: ys

/-- Sort the candidate list by descending support size. -/
def sortDesc (l : List (Nat × List Int)) : List (Nat × List Int) :=
  l.foldr insertDesc []

/-- Containment of one support list in another (`HashSet::is_subset`). -/
def listSubset (a b : List Int) : Bool := a.all (fun x => b.contains x)

/-- The selection walk of `closest_unsplitable_and`: advance to the next
candidate while every later candidate's support is contained in its support,
returning the last candidate that passed. -/
def candWalk : (Nat × List Int) → List (Nat × List Int) → (Nat × List Int)
  | best, [] => best
  | best, c :: rest =>
      if rest.all (fun d => listSubset d.2 c.2) then candWalk c rest else best

/-- `IntermediateGraph::closest_unsplitable_and`.  `none` models the panics:
a missing `literal_children` entry, or indexing `cached_ands[0]` on an empty
candidate vector. -/
def closest_unsplitable_and (g : IntermediateGraph) (clause : List Int) :
    Option (Nat × List Int) :=
  if clause = [] then some (0, []) else
  match candidatesOf g clause with
  | none => none
  | some cands =>
    match sortDesc cands with
    | [] => none
    | top :: rest2 => some (candWalk top (top :: rest2))

/-- State threaded through the `transform_to_cnf` node loop: the literal
renumber map, the clause list built so far (clauses as integer literal lists,
abstracting the emitted DIMACS strings), the next Tseitin variable, the next
compact literal index, and the per-node CNF variable array `clause_var`. -/
structure TState where
  re_index_mapping : List (Int × Int)
  cnf : List (List Int)
  counter : Int
  lit_counter : Int
  clause_var : List Int
deriving DecidableEq

/-- One iteration of the `transform_to_cnf` loop over the rebuilt nodes:
Tseitin clauses for And/Or gates, renumbering for literals, and a panic
(`none`) on any other node kind. -/
def tStep (st : TState) (index : Nat) (node : Node) : Option TState :=
  match node.ntype with
  | NodeType.And children =>
      some { st with
        cnf := st.cnf
          ++ children.map (fun child => [-st.counter, st.clause_var.getD child 0])
          ++ [st.counter :: children.map (fun c => -(st.clause_var.getD c 0))],
        clause_var := st.clause_var.set index st.counter,
        counter := st.counter + 1 }
  | NodeType.Or children =>
      some { st with
        cnf := st.cnf
          ++ children.map (fun child => [st.counter, -(st.clause_var.getD child 0)])
          ++ [(-st.counter) :: children.map (fun c => st.clause_var.getD c 0)],
        clause_var := st.clause_var.set index st.counter,
        counter := st.counter + 1 }
  | NodeType.Literal literal =>
      match alookup st.re_index_mapping (literal.natAbs : Int) with
      | some re_index =>
          some { st with
            clause_var := st.clause_var.set index
              (if 0 < literal then re_index else -re_index) }
      | none =>
          some { st with
            re_index_mapping := st.re_index_mapping ++ [((literal.natAbs : Int), st.lit_counter)],
            clause_var := st.clause_var.set index
              (if 0 < literal then st.lit_counter else -st.lit_counter),
            lit_counter := st.lit_counter + 1 }
  | _ => none

/-- The `transform_to_cnf` loop over the enumerated nodes. -/
def tLoop : List Node → Nat → TState → Option TState
  | [], _, st => some st
  | nd :: rest, idx, st =>
    match tStep st idx nd with
    | none => none
    | some st2 => tLoop rest (idx + 1) st2

/-- Number of distinct variables in the cached literal support of a vertex
(the Tseitin variable offset computation of `transform_to_cnf`). -/
def supportVarCount (g : IntermediateGraph) (starting_point : Nat) : Option Nat :=
  (alookup g.literal_children starting_point).map
    (fun sup => (dedupList (sup.map (fun v => (v.natAbs : Int)))).length)

/-- `IntermediateGraph::transform_to_cnf`.  Returns the DIMACS header data
(variable count `counter - 1` and clause count), the clause list, and the
inverted renumber map (compact id → original variable).  `none` models the
panics: a missing support entry, a True/False node in the lowered list, an
empty node list (`nodes.len() - 1`), or a clause literal whose variable has
no renumber entry. -/
def transform_to_cnf (g : IntermediateGraph) (starting_point : Nat)
    (clause : Option (List Int)) :
    Option ((Int × Nat) × List (List Int) × List (Int × Int)) :=
  match rebuild g (some starting_point) with
  | none => none
  | some (nodes, _, _) =>
    match supportVarCount g starting_point with
    | none => none
    | some vCount =>
      match tLoop nodes 0
          { re_index_mapping := [], cnf := [], counter := (vCount : Int) + 1,
            lit_counter := 1, clause_var := List.replicate nodes.length 0 } with
      | none => none
      | some st =>
        if nodes.length = 0 then none
        else
          let withRoot := st.cnf ++ [[st.clause_var.getD (nodes.length - 1) 0]]
          match clause with
          | none =>
              some ((st.counter - 1, withRoot.length), withRoot,
                st.re_index_mapping.map (fun p => (p.2, p.1)))
          | some cl =>
              match omapM (fun f =>
                  (alookup st.re_index_mapping (f.natAbs : Int)).map
                    (fun r => if 0 < f then r else -r)) cl with
              | none => none
              | some renumbered =>
                  let full := withRoot ++ [renumbered]
                  some ((st.counter - 1, full.length), full,
                    st.re_index_mapping.map (fun p => (p.2, p.1)))

/-- Swap keys and values of an association list (the `drain`/reinsert
inversion of `nx_literals` at the start of `add_clause`). -/
def invertAssoc {α β : Type} (l : List (α × β)) : List (β × α) :=
  l.map (fun p => (p.2, p.1))

/-- The synthetic value assigned to a Tseitin literal during splicing
(`lit + 1_000_000` for positive, `lit - 1_000_000` for non-positive). -/
def tseitinOffset (lit : Int) : Int :=
  if 0 < lit then lit + 1000000 else lit - 1000000

/-- The splice loop of `add_clause`: walk the compiled subgraph in post-order;
reuse the host's literal vertex for every renumbered real literal, allocate a
fresh vertex with a ±1,000,000-offset value for a Tseitin literal, allocate a
fresh vertex for every gate, and connect each new vertex to its children's
images. -/
def graftGo (re_indices : List (Int × Int)) (literals_nx : List (Int × Nat))
    (sub : IntermediateGraph) :
    List Nat → IntermediateGraph × List (Nat × Nat) →
    Option (IntermediateGraph × List (Nat × Nat))
  | [], acc => some acc
  | nx :: rest, (host, cache) =>
    match sub.graph.kinds.get? nx with
    | none => none
    | some k =>
      let newRes : Option (IntermediateGraph × Nat) :=
        if k = TId.PositiveLiteral ∨ k = TId.NegativeLiteral then
          match alookup sub.nx_literals nx with
          | none => none
          | some lit =>
            match alookup re_indices (lit.natAbs : Int) with
            | some re_lit =>
                match alookup literals_nx (re_lit * lit.sign) with
                | none => none
                | some hnx => some (host, hnx)
            | none =>
                let new_nx := host.graph.kinds.length
                some ({ host with
                  graph := { host.graph with kinds := host.graph.kinds ++ [k] },
                  nx_literals := host.nx_literals
                    ++ [(new_nx, tseitinOffset lit)] },
                  new_nx)
        else
          some ({ host with
            graph := { host.graph with kinds := host.graph.kinds ++ [k] } },
            host.graph.kinds.length)
      match newRes with
      | none => none
      | some (host2, new_nx) =>
        let cache2 := (nx, new_nx) :: cache
        match omapM (alookup cache2) (sub.graph.children nx) with
        | none => none
        | some childImgs =>
            graftGo re_indices literals_nx sub rest
              ({ host2 with graph := { host2.graph with
                  edges := host2.graph.edges ++ childImgs.map (fun c => (new_nx, c)) } },
                cache2)

/-- Largest absolute key of the renumber map
(`re_indices.keys().map(unsigned_abs).max().unwrap()`). -/
def maxAbsKey (l : List (Int × Int)) : Option Nat :=
  (l.map (fun p => p.1.natAbs)).max?

/-- Outcome of an `add_clause` call: the resulting graph (`none` models a
panic aborting the edit) together with whether the temporary CNF and NNF
files exist when the call ends. -/
structure EditOutcome where
  result : Option IntermediateGraph
  cnf_file : Bool
  nnf_file : Bool
deriving DecidableEq

/-- The splice-and-rewire tail of `add_clause`: graft the compiled subgraph
into the host, then redirect every incoming edge of the replaced vertex to
the image of the compiled root; on success the two temp files are removed. -/
def spliceOutcome (g : IntermediateGraph) (replace : Nat)
    (re_indices : List (Int × Int)) (sub : IntermediateGraph) : EditOutcome :=
  match graftGo re_indices (invertAssoc g.nx_literals) sub
      (dfsPostOrder sub.graph sub.root) (g, []) with
  | none => { result := none, cnf_file := true, nnf_file := true }
  | some (host, cache) =>
    match alookup cache sub.root with
    | none => { result := none, cnf_file := true, nnf_file := true }
    | some new_sub_root =>
      let g2 := { host with graph := { host.graph with
          edges := (host.graph.edges.filter (fun e => ¬ e.2 = replace))
            ++ (host.graph.parentsOf replace).map (fun p => (p, new_sub_root)) } }
      { result := some g2, cnf_file := false, nnf_file := false }

/-- `IntermediateGraph::add_clause`.  The external compiler boundary is
modelled from the spec: `compile_cnf` and `build_ddnnf` live outside the
provided sources, so the compiled subgraph arrives as the oracle parameter
`compiled` (`none` models a failing or unparsable compilation, in which case
the intermediate NNF file is taken as absent).  The file creation, the two
trailing `remove_file` calls, and every `unwrap` are modelled; the
`literal_children` cache is never touched, as in the code. -/
def add_clause (g : IntermediateGraph) (clause : List Int)
    (compiled : Option IntermediateGraph) : EditOutcome :=
  match closest_unsplitable_and g clause with
  | none => { result := none, cnf_file := false, nnf_file := false }
  | some (replace, _) =>
    match transform_to_cnf g replace (some clause) with
    | none => { result := none, cnf_file := false, nnf_file := false }
    | some (_, _, re_indices) =>
      match compiled with
      | none => { result := none, cnf_file := true, nnf_file := false }
      | some sub =>
        match maxAbsKey re_indices with
        | none => { result := none, cnf_file := true, nnf_file := true }
        | some _ => spliceOutcome g replace re_indices sub

/-- Evaluate a signed literal under an assignment of the positive variables. -/
def evalLit (τ : Int → Bool) (l : Int) : Bool :=
  if 0 < l then τ l else !(τ (-l))

/-- Evaluate a clause (disjunction of signed literals). -/
def clauseHolds (τ : Int → Bool) (c : List Int) : Bool :=
  c.any (evalLit τ)

/-- Evaluate a CNF (conjunction of clauses). -/
def evalCnf (σ : Int → Bool) (cnf : List (List Int)) : Bool :=
  cnf.all (clauseHolds σ)

/-- Evaluate node `i` of a linearized node array under an assignment, with
fuel bounding the recursion depth (children sit at smaller indices, so fuel
`i + 1` suffices). -/
def evalN (nodes : List Node) (τ : Int → Bool) : Nat → Nat → Bool
  | 0, _ => false
  | fuel + 1, i =>
    match (nodes.getD i (Node.new_bool false)).ntype with
    | NodeType.Literal l => evalLit τ l
    | NodeType.And ch => ch.all (fun c => evalN nodes τ fuel c)
    | NodeType.Or ch => ch.any (fun c => evalN nodes τ fuel c)
    | NodeType.True => true
    | NodeType.False => false

/-- Truth value of the circuit rooted at the last node of a linearized array. -/
def evalCircuit (nodes : List Node) (τ : Int → Bool) : Bool :=
  evalN nodes τ nodes.length (nodes.length - 1)

/-- Truth value of the subcircuit of `g` rooted at `root` under `τ`
(`none` when the lowering fails). -/
def circuitValue (g : IntermediateGraph) (root : Nat) (τ : Int → Bool) : Option Bool :=
  (rebuild g (some root)).map (fun r => evalCircuit r.1 τ)

/-- The candidate set as the spec describes it: And vertices whose support
contains some clause literal in either polarity.  Stated only to compare with
the code's enumeration, which tests one polarity. -/
def eitherPolarityCandidates (g : IntermediateGraph) (clause : List Int) : List Nat :=
  (bfs g.graph g.root).filter (fun nx =>
    (g.graph.kinds.get? nx == some TId.And) &&
      (match alookup g.literal_children nx with
       | some diffs => clause.any (fun l => diffs.contains l || diffs.contains (-l))
       | none => false))

/-- A two-node d-DNNF `x1 ∧ x2` used as a small concrete instance. -/
def G3 : IntermediateGraph :=
  { graph := { kinds := [TId.And, TId.PositiveLiteral, TId.PositiveLiteral],
               edges := [(0, 1), (0, 2)] },
    root := 0,
    nx_literals := [(1, 1), (2, 2)],
    literal_children := [(0, [1, 2])] }

/-- The linearization of `G3` from its root. -/
def N3 : List Node :=
  [{ count := 1, parents := [2], ntype := NodeType.Literal 2 },
   { count := 1, parents := [2], ntype := NodeType.Literal 1 },
   { count := 1, parents := [], ntype := NodeType.And [0, 1] }]

/-- The d-DNNF `(x1 ∧ x2) ∨ (¬x1 ∧ ¬x2)`: two And branches under an Or root. -/
def Gc1 : IntermediateGraph :=
  { graph := { kinds := [TId.Or, TId.And, TId.And, TId.PositiveLiteral,
                         TId.PositiveLiteral, TId.NegativeLiteral, TId.NegativeLiteral],
               edges := [(0, 1), (0, 2), (1, 3), (1, 4), (2, 5), (2, 6)] },
    root := 0,
    nx_literals := [(3, 1), (4, 2), (5, -1), (6, -2)],
    literal_children := [(1, [1, 2]), (2, [-1, -2])] }

/-- A correct external compilation of the CNF that `add_clause Gc1 [1]`
emits (clauses `[-3,1] [-3,2] [3,-1,-2] [3] [2]`, whose unique model sets all
three compact variables true): the conjunction of compact literals 1, 2, 3. -/
def SUBc1 : IntermediateGraph :=
  { graph := { kinds := [TId.PositiveLiteral, TId.PositiveLiteral,
                         TId.PositiveLiteral, TId.And],
               edges := [(3, 0), (3, 1), (3, 2)] },
    root := 3,
    nx_literals := [(0, 1), (1, 2), (2, 3)],
    literal_children := [(3, [1, 2, 3])] }

/-- The editable graph after `add_clause Gc1 [1]` with compilation `SUBc1`. -/
def Gc1Edited : IntermediateGraph :=
  ((add_clause Gc1 [1] (some SUBc1)).result).getD Gc1

/-- The d-DNNF `¬x4 ∧ ¬x5`: an And whose support holds only negative literals. -/
def G4 : IntermediateGraph :=
  { graph := { kinds := [TId.And, TId.NegativeLiteral, TId.NegativeLiteral],
               edges := [(0, 1), (0, 2)] },
    root := 0,
    nx_literals := [(1, -4), (2, -5)],
    literal_children := [(0, [-4, -5])] }

/-- The d-DNNF `(x1 ∧ y) ∨ (¬x1 ∧ ¬y)` where `y` is variable 1000003,
a legal variable id at the Tseitin offset range. -/
def G7 : IntermediateGraph :=
  { graph := { kinds := [TId.Or, TId.And, TId.And, TId.PositiveLiteral,
                         TId.PositiveLiteral, TId.NegativeLiteral, TId.NegativeLiteral],
               edges := [(0, 1), (0, 2), (1, 3), (1, 4), (2, 5), (2, 6)] },
    root := 0,
    nx_literals := [(3, 1), (4, 1000003), (5, -1), (6, -1000003)],
    literal_children := [(1, [1, 1000003]), (2, [-1, -1000003])] }

/-- A correct external compilation of the CNF that `add_clause G7 [1]` emits
(same clause list as for `Gc1`): conjunction of compact literals 1, 2, 3. -/
def SUB7 : IntermediateGraph :=
  { graph := { kinds := [TId.PositiveLiteral, TId.PositiveLiteral,
                         TId.PositiveLiteral, TId.And],
               edges := [(3, 0), (3, 1), (3, 2)] },
    root := 3,
    nx_literals := [(0, 1), (1, 2), (2, 3)],
    literal_children := [(3, [1, 2, 3])] }

/-- The editable graph after `add_clause G7 [1]` with compilation `SUB7`. -/
def G7Edited : IntermediateGraph :=
  ((add_clause G7 [1] (some SUB7)).result).getD G7

/-- The vertex recorded by a pending emit task, if any. -/
def emitNx : DfsTask → Option Nat
  | DfsTask.visit _ => none
  | DfsTask.emit nx => some nx

/-- Whether a linearized node is an internal gate (And or Or). -/
def isGate (nd : Node) : Bool :=
  match nd.ntype with
  | NodeType.And _ => true
  | NodeType.Or _ => true
  | _ => false

/-- Number of gate nodes among the first `k` entries of a linearized array:
the Tseitin auxiliary variable of the gate at index `k` is `V + 1` plus this. -/
def gatesBefore (nodes : List Node) (k : Nat) : Nat :=
  ((nodes.take k).filter isGate).length

/-- The Tseitin clauses that the `transform_to_cnf` loop emits for one node,
expressed over the final `clause_var` array: gate equivalences for And/Or,
nothing for literals. -/
def blockOf (cv : List Int) (a : Int) (nd : Node) : List (List Int) :=
  match nd.ntype with
  | NodeType.And ch =>
      ch.map (fun c => [-a, cv.getD c 0]) ++ [a :: ch.map (fun c => -(cv.getD c 0))]
  | NodeType.Or ch =>
      ch.map (fun c => [a, -(cv.getD c 0)]) ++ [(-a) :: ch.map (fun c => cv.getD c 0)]
  | _ => []

/-- Concatenation of the per-node Tseitin blocks of the first `k` nodes. -/
def blocksUpTo (nodes : List Node) (cv : List Int) (k : Nat) : List (List Int) :=
  ((List.range k).map
    (fun i => blockOf cv (cv.getD i 0) (nodes.getD i (Node.new_bool false)))).join

/-- Lookup by second component (the renumber map returned by
`transform_to_cnf` is the key/value-swapped map). -/
def rlookup {α β : Type} [DecidableEq β] : List (α × β) → β → Option α
  | [], _ => none
  | (k, v) :: rest, b => if v = b then some k else rlookup rest b

/-- Translate a CNF assignment back to the original variables through the
inverse renumber map (variables without a compact id read false). -/
def pullAssign (inv : List (Int × Int)) (σ : Int → Bool) : Int → Bool :=
  fun v =>
    match rlookup inv v with
    | some j => σ j
    | none => false

/-- Truth value of node `i` with just enough fuel (children sit below `i`). -/
def evalIdx (nodes : List Node) (τ : Int → Bool) (i : Nat) : Bool :=
  evalN nodes τ (i + 1) i

/-- The index of a gate node holding a given CNF variable, if any. -/
def gateIdxAt (nodes : List Node) (cv : List Int) (j : Int) : Option Nat :=
  (List.range nodes.length).find?
    (fun i => isGate (nodes.getD i (Node.new_bool false)) && (cv.getD i 0 == j))

/-- The CNF assignment canonically extending a circuit assignment: Tseitin
variables read the truth value of their gate, compact literal variables read
the original variable through the inverse renumber map. -/
def sigmaB (nodes : List Node) (cv : List Int) (inv : List (Int × Int))
    (τ : Int → Bool) : Int → Bool :=
  fun j =>
    match gateIdxAt nodes cv j with
    | some i2 => evalIdx nodes τ i2
    | none =>
      match alookup inv j with
      | some v => τ v
      | none => false

/-- Truth of the optional extra clause of `transform_to_cnf`. -/
def extraHolds (clauseOpt : Option (List Int)) (τ : Int → Bool) : Bool :=
  match clauseOpt with
  | none => true
  | some C => clauseHolds τ C

/-- The count/ntype projection preserved by the parent pushes. -/
def stripParents (nd : Node) : Nat × NodeType := (nd.count, nd.ntype)

/-- Children of a linearized node (empty for leaves). -/
def nodeChildren (nd : Node) : List Nat :=
  match nd.ntype with
  | NodeType.And ch => ch
  | NodeType.Or ch => ch
  | _ => []

/-- The cardinality law of the spec for one node of a linearized array. -/
def countLaw (nodes : List Node) (nd : Node) : Prop :=
  match nd.ntype with
  | NodeType.And ch =>
      nd.count = (ch.map (fun c => (nodes.getD c (Node.new_bool false)).count)).prod
  | NodeType.Or ch =>
      nd.count = (ch.map (fun c => (nodes.getD c (Node.new_bool false)).count)).sum
  | NodeType.Literal _ => nd.count = 1
  | NodeType.True => nd.count = 1
  | NodeType.False => nd.count = 0

/-- Joint invariant of the rebuild loop: every emitted node's children sit at
strictly smaller indices and its cached count satisfies the cardinality law. -/
def rebuildInv (parsed : List Node) : Prop :=
  ∀ i nd, parsed.get? i = some nd →
    (∀ c ∈ nodeChildren nd, c < i) ∧ countLaw parsed nd

/-- Invariant of the splice loop: every literal value already in the host is
either a small real value or the offset image of a literal of an already
processed vertex of the compiled subgraph. -/
def graftVals (sub : IntermediateGraph) (order : List Nat)
    (l : List (Nat × Int)) : Prop :=
  ∀ p ∈ l, p.2.natAbs < 1000000 ∨
    ∃ q ∈ sub.nx_literals, q.1 ∉ order ∧ p.2 = tseitinOffset q.2

/-- The variables (absolute values) of the literal nodes of a linearized
array, in emission order with repetitions. -/
def nodeVars (nodes : List Node) : List Int :=
  nodes.filterMap (fun nd =>
    match nd.ntype with
    | NodeType.Literal l => some ((l.natAbs : Int))
    | _ => none)

/-- Post-order index discipline of a linearized array: every child index is
strictly below its parent's index (out-of-range reads default to a leaf). -/
def postOrd (nodes : List Node) : Prop :=
  ∀ i : Nat, ∀ c ∈ nodeChildren (nodes.getD i (Node.new_bool false)), c < i

/-- Invariant carried through the `transform_to_cnf` loop after `k` nodes:
the sizes, the renumber map's range/injectivity/domain/keys, the CNF variable
of every processed node, and the clause list emitted so far. -/
structure TLoopInv (nodes : List Node) (V : Int) (k : Nat) (st : TState) : Prop where
  len_cv : st.clause_var.length = nodes.length
  litc : st.lit_counter = 1 + ((nodeVars (nodes.take k)).toFinset.card : Int)
  ctr : st.counter = V + 1 + (gatesBefore nodes k : Int)
  rng : ∀ v j, alookup st.re_index_mapping v = some j → 1 ≤ j ∧ j < st.lit_counter
  inj : ∀ v1 v2 j, alookup st.re_index_mapping v1 = some j →
    alookup st.re_index_mapping v2 = some j → v1 = v2
  dom : ∀ v, alookup st.re_index_mapping v = none ↔ v ∉ nodeVars (nodes.take k)
  keys : (st.re_index_mapping.map Prod.fst).Nodup
  cv_lit : ∀ i, i < k → ∀ l, (nodes.getD i (Node.new_bool false)).ntype = NodeType.Literal l →
    ∃ j, alookup st.re_index_mapping ((l.natAbs : Int)) = some j ∧
      st.clause_var.getD i 0 = if 0 < l then j else -j
  cv_gate : ∀ i, i < k → isGate (nodes.getD i (Node.new_bool false)) = true →
    st.clause_var.getD i 0 = V + 1 + (gatesBefore nodes i : Int)
  knd : ∀ i, i < k → isGate (nodes.getD i (Node.new_bool false)) = true ∨
    ∃ l, (nodes.getD i (Node.new_bool false)).ntype = NodeType.Literal l
  cnfsh : st.cnf = blocksUpTo nodes st.clause_var k

/-! ### List helper lemmas -/

theorem alookup_mem {α β : Type} [DecidableEq α] {l : List (α × β)} {a : α} {b : β}
    (h : alookup l a = some b) : (a, b) ∈ l := by
  induction l with
  | nil => simp [alookup] at h
  | cons p rest ih =>
    obtain ⟨k, v⟩ := p
    by_cases hk : k = a
    · subst hk
      simp [alookup] at h
      simp [h]
    · simp [alookup, hk] at h
      exact List.mem_cons_of_mem _ (ih h)

theorem omapM_forall {α β : Type} {f : α → Option β} :
    ∀ {xs : List α} {ys : List β}, omapM f xs = some ys →
      ∀ y ∈ ys, ∃ x ∈ xs, f x = some y := by
  intro xs
  induction xs with
  | nil =>
    intro ys h y hy
    simp [omapM] at h
    subst h
    simp at hy
  | cons a l ih =>
    intro ys h y hy
    unfold omapM at h
    cases hfa : f a with
    | none => rw [hfa] at h; exact absurd h (by simp)
    | some b =>
      rw [hfa] at h
      cases hrec : omapM f l with
      | none => rw [hrec] at h; exact absurd h (by simp)
      | some bs =>
        rw [hrec] at h
        simp at h
        subst h
        rcases List.mem_cons.mp hy with hb | hb
        · exact ⟨a, by
            exact List.mem_cons_self a l, by rw [hfa, hb]⟩
        · obtain ⟨x, hx, hfx⟩ := ih hrec y hb
          exact ⟨x, List.mem_cons_of_mem _ hx, hfx⟩

theorem getD_append_left {α : Type} {l l' : List α} {d : α} :
    ∀ {n : Nat}, n < l.length → (l ++ l').getD n d = l.getD n d := by
  induction l with
  | nil => intro n h; simp at h
  | cons a t ih =>
    intro n h
    cases n with
    | zero => rfl
    | succ m =>
      simp only [List.cons_append, List.getD_cons_succ]
      exact ih (Nat.lt_of_succ_lt_succ h)

theorem getD_append_self {α : Type} {l : List α} {x d : α} :
    (l ++ [x]).getD l.length d = x := by
  induction l with
  | nil => rfl
  | cons a t ih =>
    simp only [List.cons_append, List.length_cons, List.getD_cons_succ]
    exact ih

theorem modifyAt_length {α : Type} (f : α → α) :
    ∀ (l : List α) (i : Nat), (modifyAt l i f).length = l.length := by
  intro l
  induction l with
  | nil => intro i; rfl
  | cons a t ih =>
    intro i
    cases i with
    | zero => rfl
    | succ m => simp [modifyAt, ih]

theorem modifyAt_map_strip (f : Node → Node)
    (hf : ∀ nd, stripParents (f nd) = stripParents nd) :
    ∀ (l : List Node) (i : Nat),
      (modifyAt l i f).map stripParents = l.map stripParents := by
  intro l
  induction l with
  | nil => intro i; rfl
  | cons a t ih =>
    intro i
    cases i with
    | zero => simp [modifyAt, hf a]
    | succ m => simp [modifyAt, ih m]

theorem pushParents_map_strip (children : List Nat) (idx : Nat) :
    ∀ (parsed : List Node),
      (pushParents parsed children idx).map stripParents = parsed.map stripParents := by
  unfold pushParents
  induction children with
  | nil => intro parsed; rfl
  | cons c cs ih =>
    intro parsed
    simp only [List.foldl_cons]
    rw [ih]
    exact modifyAt_map_strip (fun nd => { nd with parents := nd.parents ++ [idx] })
      (fun nd => rfl) parsed c

theorem pushParents_length (parsed : List Node) (children : List Nat) (idx : Nat) :
    (pushParents parsed children idx).length = parsed.length := by
  have h := pushParents_map_strip children idx parsed
  have := congrArg List.length h
  simpa using this

theorem map_strip_count {l l' : List Node}
    (h : l.map stripParents = l'.map stripParents) (n : Nat) (d : Node) :
    (l.getD n d).count = (l'.getD n d).count := by
  have hlen : l.length = l'.length := by
    have := congrArg List.length h
    simpa using this
  by_cases hn : n < l.length
  · have h1 : (l.map stripParents).getD n (stripParents d) = stripParents (l.getD n d) := by
      rw [List.getD_map]
    have h2 : (l'.map stripParents).getD n (stripParents d) = stripParents (l'.getD n d) := by
      rw [List.getD_map]
    rw [h] at h1
    have := h1.symm.trans h2
    exact congrArg Prod.fst this
  · have hn' : ¬ n < l'.length := hlen ▸ hn
    rw [List.getD_eq_default _ _ (Nat.le_of_not_lt hn),
      List.getD_eq_default _ _ (Nat.le_of_not_lt hn')]

theorem map_strip_get? {l l' : List Node}
    (h : l.map stripParents = l'.map stripParents) (n : Nat) :
    (l.get? n).map stripParents = (l'.get? n).map stripParents := by
  rw [← List.get?_map, ← List.get?_map, h]

/-! ### Rebuild invariants: post-order indices and the cardinality law -/

theorem countLaw_stable {parsed parsed' : List Node} {nd : Node}
    (hstrip : parsed.map stripParents = parsed'.map stripParents)
    (h : countLaw parsed nd) : countLaw parsed' nd := by
  unfold countLaw at h ⊢
  cases hnt : nd.ntype with
  | And ch =>
    rw [hnt] at h
    rw [h]
    congr 1
    exact List.map_congr_left fun c _ => map_strip_count hstrip c _
  | Or ch =>
    rw [hnt] at h
    rw [h]
    congr 1
    exact List.map_congr_left fun c _ => map_strip_count hstrip c _
  | Literal l => rw [hnt] at h; exact h
  | True => rw [hnt] at h; exact h
  | False => rw [hnt] at h; exact h

theorem countLaw_append {parsed : List Node} {tail : List Node} {nd : Node}
    (hch : ∀ c ∈ nodeChildren nd, c < parsed.length)
    (h : countLaw parsed nd) : countLaw (parsed ++ tail) nd := by
  unfold countLaw at h ⊢
  cases hnt : nd.ntype with
  | And ch =>
    rw [hnt] at h
    rw [h]
    congr 1
    refine List.map_congr_left fun c hc => ?_
    rw [getD_append_left (hch c (by rw [nodeChildren, hnt]; exact hc))]
  | Or ch =>
    rw [hnt] at h
    rw [h]
    congr 1
    refine List.map_congr_left fun c hc => ?_
    rw [getD_append_left (hch c (by rw [nodeChildren, hnt]; exact hc))]
  | Literal l => rw [hnt] at h; exact h
  | True => rw [hnt] at h; exact h
  | False => rw [hnt] at h; exact h

theorem strip_count_eq {nd nd' : Node} (h : stripParents nd = stripParents nd') :
    nd.count = nd'.count := congrArg Prod.fst h

theorem strip_ntype_eq {nd nd' : Node} (h : stripParents nd = stripParents nd') :
    nd.ntype = nd'.ntype := congrArg Prod.snd h

theorem nodeChildren_congr {nd nd' : Node} (h : nd.ntype = nd'.ntype) :
    nodeChildren nd = nodeChildren nd' := by
  unfold nodeChildren
  rw [h]

theorem countLaw_node_congr {ns : List Node} {nd nd' : Node}
    (hc : nd.count = nd'.count) (ht : nd.ntype = nd'.ntype)
    (h : countLaw ns nd) : countLaw ns nd' := by
  unfold countLaw at h ⊢
  rw [← ht, ← hc]
  exact h

theorem getD_count_push_append (parsed : List Node) (ch2 : List Nat) (idx : Nat)
    (tail : List Node) {c : Nat} (hc : c < parsed.length) :
    ((pushParents parsed ch2 idx ++ tail).getD c (Node.new_bool false)).count
      = (parsed.getD c (Node.new_bool false)).count := by
  rw [getD_append_left (by rw [pushParents_length]; exact hc)]
  exact map_strip_count (pushParents_map_strip ch2 idx parsed) c _

theorem countLaw_and (ns : List Node) (cnt : Nat) (ch : List Nat)
    (h : cnt = (ch.map (fun c => (ns.getD c (Node.new_bool false)).count)).prod) :
    countLaw ns (Node.new_and cnt ch) := h

theorem countLaw_or (ns : List Node) (cnt : Nat) (ch : List Nat)
    (h : cnt = (ch.map (fun c => (ns.getD c (Node.new_bool false)).count)).sum) :
    countLaw ns (Node.new_or 0 cnt ch) := h

theorem countLaw_literal (ns : List Node) (l : Int) :
    countLaw ns (Node.new_literal l) := rfl

theorem countLaw_boolT (ns : List Node) : countLaw ns (Node.new_bool true) := rfl

theorem countLaw_boolF (ns : List Node) : countLaw ns (Node.new_bool false) := rfl

theorem nodeChildren_and (cnt : Nat) (ch : List Nat) :
    nodeChildren (Node.new_and cnt ch) = ch := rfl

theorem nodeChildren_or (cnt : Nat) (ch : List Nat) :
    nodeChildren (Node.new_or 0 cnt ch) = ch := rfl

theorem nodeChildren_literal (l : Int) : nodeChildren (Node.new_literal l) = [] := rfl

theorem nodeChildren_boolT : nodeChildren (Node.new_bool true) = [] := rfl

theorem nodeChildren_boolF : nodeChildren (Node.new_bool false) = [] := rfl

theorem rebuildInv_step {parsed : List Node} {ch2 : List Nat} {newnd : Node}
    (hinv : rebuildInv parsed)
    (hch : ∀ c ∈ nodeChildren newnd, c < parsed.length)
    (hcl : countLaw (pushParents parsed ch2 parsed.length ++ [newnd]) newnd) :
    rebuildInv (pushParents parsed ch2 parsed.length ++ [newnd]) := by
  intro i nd h
  rcases Nat.lt_trichotomy i parsed.length with hi | hi | hi
  · have hi' : i < (pushParents parsed ch2 parsed.length).length := by
      rw [pushParents_length]; exact hi
    rw [List.get?_append hi'] at h
    have hstrip := map_strip_get? (pushParents_map_strip ch2 parsed.length parsed) i
    rw [h] at hstrip
    cases h0 : parsed.get? i with
    | none => rw [h0] at hstrip; simp at hstrip
    | some nd0 =>
      rw [h0] at hstrip
      simp only [Option.map_some'] at hstrip
      have hstrip' : stripParents nd = stripParents nd0 := by
        exact Option.some.inj hstrip
      obtain ⟨hlt, hclaw⟩ := hinv i nd0 h0
      have hnte := strip_ntype_eq hstrip'
      constructor
      · rw [nodeChildren_congr hnte]
        exact hlt
      · have h1 : countLaw parsed nd :=
          countLaw_node_congr (strip_count_eq hstrip').symm hnte.symm hclaw
        have h2 : countLaw (pushParents parsed ch2 parsed.length) nd :=
          countLaw_stable (pushParents_map_strip ch2 parsed.length parsed).symm h1
        refine countLaw_append ?_ h2
        intro c hcmem
        rw [pushParents_length]
        exact Nat.lt_trans ((nodeChildren_congr hnte ▸ hlt) c hcmem) hi
  · subst hi
    have h2 := List.get?_concat_length (pushParents parsed ch2 parsed.length) newnd
    rw [pushParents_length] at h2
    rw [h2] at h
    cases h
    exact ⟨hch, hcl⟩
  · exfalso
    have hlen : (pushParents parsed ch2 parsed.length ++ [newnd]).length = parsed.length + 1 := by
      rw [List.length_append, pushParents_length]
      rfl
    have : (pushParents parsed ch2 parsed.length ++ [newnd]).get? i = none := by
      rw [List.get?_eq_none]
      rw [hlen]
      exact hi
    rw [this] at h
    cases h

theorem rebuildGo_inv (g : IntermediateGraph) :
    ∀ (order : List Nat) (nd2i : List (Nat × Nat)) (parsed : List Node)
      (lits : List (Int × Nat)) (trues : List Nat)
      (out : List Node × List (Int × Nat) × List Nat),
      (∀ p ∈ nd2i, p.2 < parsed.length) →
      rebuildInv parsed →
      rebuildGo g order nd2i parsed lits trues = some out →
      rebuildInv out.1 := by
  intro order
  induction order with
  | nil =>
    intro nd2i parsed lits trues out _ hinv h
    simp only [rebuildGo] at h
    cases h
    exact hinv
  | cons nx rest ih =>
    intro nd2i parsed lits trues out hmap hinv h
    simp only [rebuildGo] at h
    split at h
    · exact absurd h (by simp)
    · rename_i neighs hneighs
      split at h
      · exact absurd h (by simp)
      · rename_i k hk
        have hnb : ∀ c ∈ neighs, c < parsed.length := by
          intro c hc
          obtain ⟨x, _, hax⟩ := omapM_forall hneighs c hc
          exact hmap _ (alookup_mem hax)
        have hmapPush : ∀ (ch2 : List Nat) (newnd : Node),
            ∀ p ∈ (nx, parsed.length) :: nd2i,
              p.2 < (pushParents parsed ch2 parsed.length ++ [newnd]).length := by
          intro ch2 newnd p hp
          have hlen : (pushParents parsed ch2 parsed.length ++ [newnd]).length
              = parsed.length + 1 := by
            rw [List.length_append, pushParents_length]
            rfl
          rw [hlen]
          rcases List.mem_cons.mp hp with hp2 | hp2
          · rw [hp2]
            exact Nat.lt_succ_self _
          · exact Nat.lt_succ_of_lt (hmap _ hp2)
        have hmapApp : ∀ (newnd : Node),
            ∀ p ∈ (nx, parsed.length) :: nd2i,
              p.2 < (parsed ++ [newnd]).length := by
          intro newnd p hp
          have := hmapPush [] newnd p hp
          rw [pushParents] at this
          simpa using this
        have happeq : ∀ (newnd : Node),
            parsed ++ [newnd] = pushParents parsed [] parsed.length ++ [newnd] := by
          intro newnd
          rfl
        split at h
        · -- positive literal vertex
          split at h
          · exact absurd h (by simp)
          · rename_i lit hlit
            refine ih _ _ _ _ _ (hmapApp _) ?_ h
            rw [happeq]
            refine rebuildInv_step hinv ?_ (countLaw_literal _ lit)
            rw [nodeChildren_literal]
            intro c hc
            simp at hc
        · -- negative literal vertex
          split at h
          · exact absurd h (by simp)
          · rename_i lit hlit
            refine ih _ _ _ _ _ (hmapApp _) ?_ h
            rw [happeq]
            refine rebuildInv_step hinv ?_ (countLaw_literal _ lit)
            rw [nodeChildren_literal]
            intro c hc
            simp at hc
        · -- And vertex
          refine ih _ _ _ _ _ (hmapPush _ _) ?_ h
          refine rebuildInv_step hinv ?_ ?_
          · rw [nodeChildren_and]
            exact hnb
          · refine countLaw_and _ _ _ ?_
            unfold calc_and_count
            congr 1
            refine List.map_congr_left fun c hc => ?_
            exact (getD_count_push_append parsed neighs parsed.length _ (hnb c hc)).symm
        · -- Or vertex
          refine ih _ _ _ _ _ (hmapPush _ _) ?_ h
          refine rebuildInv_step hinv ?_ ?_
          · rw [nodeChildren_or]
            exact hnb
          · refine countLaw_or _ _ _ ?_
            unfold calc_or_count
            congr 1
            refine List.map_congr_left fun c hc => ?_
            exact (getD_count_push_append parsed neighs parsed.length _ (hnb c hc)).symm
        · -- True vertex
          refine ih _ _ _ _ _ (hmapApp _) ?_ h
          rw [happeq]
          refine rebuildInv_step hinv ?_ (countLaw_boolT _)
          rw [nodeChildren_boolT]
          intro c hc
          simp at hc
        · -- False vertex
          refine ih _ _ _ _ _ (hmapApp _) ?_ h
          rw [happeq]
          refine rebuildInv_step hinv ?_ (countLaw_boolF _)
          rw [nodeChildren_boolF]
          intro c hc
          simp at hc
        · -- Header vertex
          exact absurd h (by simp)

theorem rebuild_inv (g : IntermediateGraph) (alt : Option Nat)
    {out : List Node × List (Int × Nat) × List Nat}
    (h : rebuild g alt = some out) : rebuildInv out.1 := by
  refine rebuildGo_inv g _ _ _ _ _ _ ?_ ?_ h
  · intro p hp
    simp at hp
  · intro i nd hnd
    simp at hnd

/-- C8: in every node array produced by `rebuild` (for any chosen root), the
cached cardinalities satisfy `count(And) = Π count(child)`,
`count(Or) = Σ count(child)`, `count(Literal) = count(True) = 1` and
`count(False) = 0`. -/
theorem c8_rebuild_counts (g : IntermediateGraph) (alt_root : Option Nat)
    (nodes : List Node) (lits : List (Int × Nat)) (trues : List Nat)
    (h : rebuild g alt_root = some (nodes, lits, trues)) :
    ∀ i nd, nodes.get? i = some nd → countLaw nodes nd :=
  fun i nd hnd => ((rebuild_inv g alt_root h) i nd hnd).2

/-- C8 witness: the linearization of the concrete circuit `G3` satisfies the
cardinality law, at the root And node in particular. -/
theorem c8_rebuild_counts_witness :
    rebuild G3 (some 0) = some (N3, [(1, 1), (2, 0)], []) ∧
      countLaw N3 { count := 1, parents := [], ntype := NodeType.And [0, 1] } :=
  ⟨rfl, c8_rebuild_counts G3 (some 0) N3 [(1, 1), (2, 0)] [] rfl 2
    { count := 1, parents := [], ntype := NodeType.And [0, 1] } rfl⟩

/-- C9: in every node array produced by `rebuild` (for any chosen root), each
And/Or node's child indices are strictly smaller than the node's own index. -/
theorem c9_rebuild_postorder_indices (g : IntermediateGraph) (alt_root : Option Nat)
    (nodes : List Node) (lits : List (Int × Nat)) (trues : List Nat)
    (h : rebuild g alt_root = some (nodes, lits, trues)) :
    ∀ i nd, nodes.get? i = some nd → ∀ c ∈ nodeChildren nd, c < i :=
  fun i nd hnd => ((rebuild_inv g alt_root h) i nd hnd).1

/-- C9 witness: in the linearization of `G3` the root And at index 2 points at
child index 0, which is strictly smaller. -/
theorem c9_rebuild_postorder_indices_witness :
    rebuild G3 (some 0) = some (N3, [(1, 1), (2, 0)], []) ∧ 0 < 2 :=
  ⟨rfl, c9_rebuild_postorder_indices G3 (some 0) N3 [(1, 1), (2, 0)] [] rfl 2
    { count := 1, parents := [], ntype := NodeType.And [0, 1] } rfl 0 (by decide)⟩

/-! ### The closest unsplittable And locator (C3, C4) -/

/-- C3 counterexample: on the circuit `x1 ∧ x2` and the clause `[3]` no And
support contains a clause literal; the locator panics (indexing the empty
candidate vector) instead of returning the root. -/
theorem c3_locator_counterexample :
    closest_unsplitable_and G3 [3] = none ∧
      ¬ ∃ sup, closest_unsplitable_and G3 [3] = some (G3.root, sup) := by
  constructor
  · rfl
  · intro ⟨sup, hsup⟩
    rw [show closest_unsplitable_and G3 [3] = none from rfl] at hsup
    cases hsup

/-- C3 amended: for every nonempty clause whose candidate enumeration comes
back empty, `closest_unsplitable_and` fails (the `cached_ands[0]` panic,
modelled as `none`) rather than returning the root. -/
theorem c3_locator_no_candidate_panics (g : IntermediateGraph) (clause : List Int)
    (hne : clause ≠ []) (hcand : candidatesOf g clause = some []) :
    closest_unsplitable_and g clause = none := by
  unfold closest_unsplitable_and
  rw [if_neg hne, hcand]
  rfl

/-- C3 amended witness: concrete instance of the empty-candidate panic. -/
theorem c3_locator_no_candidate_panics_witness :
    ([3] : List Int) ≠ [] ∧ candidatesOf G3 [3] = some [] ∧
      closest_unsplitable_and G3 [3] = none :=
  ⟨by decide, rfl, c3_locator_no_candidate_panics G3 [3] (by decide) rfl⟩

/-- C4 counterexample: for the circuit `¬x4 ∧ ¬x5` and the clause `[4]`, the
And root carries `-4` in its support, so the spec's either-polarity reading
makes it a candidate, but the code's candidate set is empty. -/
theorem c4_candidates_counterexample :
    candidatesOf G4 [4] = some [] ∧ eitherPolarityCandidates G4 [4] = [0] :=
  ⟨rfl, rfl⟩

theorem candGo_mem (g : IntermediateGraph) (clause : List Int) :
    ∀ (order : List Nat) (l : List (Nat × List Int)),
      candGo g clause order = some l →
      ∀ nx diffs, ((nx, diffs) ∈ l ↔
        nx ∈ order ∧ g.graph.kinds.get? nx = some TId.And ∧
          alookup g.literal_children nx = some diffs ∧
          clause.any (fun e => diffs.contains e) = true) := by
  intro order
  induction order with
  | nil =>
    intro l h nx diffs
    simp only [candGo] at h
    cases h
    simp
  | cons nx0 rest ih =>
    intro l h nx diffs
    simp only [candGo] at h
    split at h
    · exact absurd h (by simp)
    · rename_i k hk0
      split at h
      · exact absurd h (by simp)
      · rename_i diffs0 hd0
        split at h
        · exact absurd h (by simp)
        · rename_i tail htail
          split at h
          · rename_i hany
            cases h
            constructor
            · intro hmem
              rcases List.mem_cons.mp hmem with hmem | hmem
              · obtain ⟨h1, h2⟩ := Prod.mk.injEq .. ▸ hmem
                subst h1
                subst h2
                exact ⟨List.mem_cons_self _ _, hk0, hd0, hany⟩
              · obtain ⟨ho, hmem2⟩ := (ih tail htail nx diffs).mp hmem
                exact ⟨List.mem_cons_of_mem _ ho, hmem2⟩
            · intro ⟨ho, hknd, hdl, hany2⟩
              rcases List.mem_cons.mp ho with ho | ho
              · subst ho
                rw [hd0] at hdl
                cases hdl
                exact List.mem_cons_self _ _
              · exact List.mem_cons_of_mem _
                  ((ih tail htail nx diffs).mpr ⟨ho, hknd, hdl, hany2⟩)
          · rename_i hany
            cases h
            constructor
            · intro hmem
              obtain ⟨ho, hmem2⟩ := (ih l htail nx diffs).mp hmem
              exact ⟨List.mem_cons_of_mem _ ho, hmem2⟩
            · intro ⟨ho, hknd, hdl, hany2⟩
              rcases List.mem_cons.mp ho with ho | ho
              · subst ho
                rw [hd0] at hdl
                cases hdl
                exact absurd hany2 hany
              · exact (ih l htail nx diffs).mpr ⟨ho, hknd, hdl, hany2⟩
    · rename_i val hne heq
      constructor
      · intro hmem
        obtain ⟨ho, hmem2⟩ := (ih l h nx diffs).mp hmem
        exact ⟨List.mem_cons_of_mem _ ho, hmem2⟩
      · intro ⟨ho, hknd, hdl, hany2⟩
        rcases List.mem_cons.mp ho with ho | ho
        · subst ho
          rw [hknd] at heq
          exact absurd (Option.some.inj heq).symm hne
        · exact (ih l h nx diffs).mpr ⟨ho, hknd, hdl, hany2⟩

/-- C4 amended: the candidate set enumerated by `closest_unsplitable_and`
consists of exactly those reachable And vertices whose `literal_support`
contains some literal of the clause with the same polarity. -/
theorem c4_candidates_same_polarity (g : IntermediateGraph) (clause : List Int)
    (l : List (Nat × List Int)) (h : candidatesOf g clause = some l)
    (nx : Nat) (diffs : List Int) :
    (nx, diffs) ∈ l ↔
      nx ∈ bfs g.graph g.root ∧ g.graph.kinds.get? nx = some TId.And ∧
        alookup g.literal_children nx = some diffs ∧
        clause.any (fun e => diffs.contains e) = true :=
  candGo_mem g clause _ l h nx diffs

/-- C4 amended witness: the single candidate of `Gc1` for the clause `[1]` is
the And vertex 1 with support `[1, 2]`. -/
theorem c4_candidates_same_polarity_witness :
    candidatesOf Gc1 [1] = some [(1, [1, 2])] ∧
      ((1, ([1, 2] : List Int)) ∈ [((1 : Nat), ([1, 2] : List Int))] ↔
        1 ∈ bfs Gc1.graph Gc1.root ∧ Gc1.graph.kinds.get? 1 = some TId.And ∧
          alookup Gc1.literal_children 1 = some [1, 2] ∧
          ([1] : List Int).any (fun e => ([1, 2] : List Int).contains e) = true) :=
  ⟨rfl, c4_candidates_same_polarity Gc1 [1] [(1, [1, 2])] rfl 1 [1, 2]⟩

/-! ### Clause insertion on concrete circuits (C1, C5, C6) -/

/-- C1: inserting the clause `[1]` into `(x1 ∧ x2) ∨ (¬x1 ∧ ¬x2)` splices the
recompiled subcircuit below the left And only; the all-false assignment still
satisfies the edited circuit through the untouched right And although it
violates the clause, so the edited model set is not
`models(G) ∩ models(C)`. -/
theorem c1_edit_keeps_countermodel :
    (add_clause Gc1 [1] (some SUBc1)).result = some Gc1Edited ∧
      circuitValue Gc1Edited 0 (fun _ => false) = some true ∧
      circuitValue Gc1 0 (fun _ => false) = some true ∧
      clauseHolds (fun _ => false) [1] = false :=
  ⟨rfl, rfl, rfl, rfl⟩

/-- C5: the same edit never touches `literal_children`; the grafted And
vertex 8 is reachable from the root but has no support entry, so the next
`closest_unsplitable_and` call fails on the `unwrap` of that entry. -/
theorem c5_support_stale_after_edit :
    (add_clause Gc1 [1] (some SUBc1)).result = some Gc1Edited ∧
      Gc1Edited.literal_children = Gc1.literal_children ∧
      8 ∈ bfs Gc1Edited.graph Gc1Edited.root ∧
      Gc1Edited.graph.kinds.get? 8 = some TId.And ∧
      alookup Gc1Edited.literal_children 8 = none ∧
      closest_unsplitable_and Gc1Edited [1] = none :=
  ⟨rfl, rfl, by decide, rfl, rfl, rfl⟩

/-- C6 counterexample: when the external compiler fails (`none` oracle) after
the CNF file has been written, `add_clause` panics and the CNF temp file is
left behind: temporary files are not deleted on the failure path. -/
theorem c6_cleanup_counterexample :
    (add_clause G3 [1] none).result = none ∧
      (add_clause G3 [1] none).cnf_file = true :=
  ⟨rfl, rfl⟩

theorem spliceOutcome_shape (g : IntermediateGraph) (replace : Nat)
    (re_indices : List (Int × Int)) (sub : IntermediateGraph) :
    (spliceOutcome g replace re_indices sub).result = none ∨
      ((spliceOutcome g replace re_indices sub).cnf_file = false ∧
        (spliceOutcome g replace re_indices sub).nnf_file = false) := by
  unfold spliceOutcome
  cases hg : graftGo re_indices (invertAssoc g.nx_literals) sub
      (dfsPostOrder sub.graph sub.root) (g, []) with
  | none => simp
  | some pr =>
    obtain ⟨host, cache⟩ := pr
    cases ha : alookup cache sub.root with
    | none => simp [ha]
    | some r => simp [ha]

theorem add_clause_outcome_shape (g : IntermediateGraph) (clause : List Int)
    (compiled : Option IntermediateGraph) :
    (add_clause g clause compiled).result = none ∨
      ((add_clause g clause compiled).cnf_file = false ∧
        (add_clause g clause compiled).nnf_file = false) := by
  unfold add_clause
  repeat' split
  all_goals try simp
  all_goals apply spliceOutcome_shape

theorem add_clause_result_files (g : IntermediateGraph) (clause : List Int)
    (compiled : Option IntermediateGraph) :
    (add_clause g clause compiled).result.isSome = true →
      (add_clause g clause compiled).cnf_file = false ∧
      (add_clause g clause compiled).nnf_file = false := by
  intro hres
  rcases add_clause_outcome_shape g clause compiled with h | h
  · rw [h] at hres
    cases hres
  · exact h

/-- C6 amended: on a compiler failure the edit aborts (panics) before any
mutation, so no graph is produced and the host is untouched, but the
temporary CNF file persists: cleanup happens only on the success path, where
both temp files are removed. -/
theorem c6_failure_no_cleanup (g : IntermediateGraph) (clause : List Int)
    (replace : Nat) (sup : List Int)
    (t : (Int × Nat) × List (List Int) × List (Int × Int))
    (h1 : closest_unsplitable_and g clause = some (replace, sup))
    (h2 : transform_to_cnf g replace (some clause) = some t) :
    (add_clause g clause none).result = none ∧
      (add_clause g clause none).cnf_file = true ∧
      ∀ compiled g2, (add_clause g clause compiled).result = some g2 →
        (add_clause g clause compiled).cnf_file = false ∧
        (add_clause g clause compiled).nnf_file = false := by
  refine ⟨?_, ?_, ?_⟩
  · simp only [add_clause, h1, h2]
  · simp only [add_clause, h1, h2]
  · intro compiled g2 hres
    exact add_clause_result_files g clause compiled (by rw [hres]; rfl)

/-- C6 amended witness: concrete aborted edit of `G3` with the clause `[1]`:
the CNF file persists, the result is no graph. -/
theorem c6_failure_no_cleanup_witness :
    closest_unsplitable_and G3 [1] = some (0, [1, 2]) ∧
      (add_clause G3 [1] none).result = none ∧
      (add_clause G3 [1] none).cnf_file = true :=
  ⟨rfl, (c6_failure_no_cleanup G3 [1] 0 [1, 2] _ rfl rfl).1,
    (c6_failure_no_cleanup G3 [1] 0 [1, 2] _ rfl rfl).2.1⟩

/-! ### Literal uniqueness under splicing (C7) -/

theorem tseitinOffset_natAbs_large (l : Int) :
    1000000 ≤ (tseitinOffset l).natAbs := by
  unfold tseitinOffset
  split <;> omega

theorem tseitinOffset_injective {a b : Int} (h : tseitinOffset a = tseitinOffset b) :
    a = b := by
  unfold tseitinOffset at h
  split at h <;> split at h <;> omega

theorem nodup_values_ne {l : List (Nat × Int)} (h : (l.map Prod.snd).Nodup) :
    ∀ p ∈ l, ∀ q ∈ l, p.1 ≠ q.1 → p.2 ≠ q.2 := by
  induction l with
  | nil => intro p hp; simp at hp
  | cons x t ih =>
    intro p hp q hq hne
    simp only [List.map_cons, List.nodup_cons] at h
    obtain ⟨hx, ht⟩ := h
    rcases List.mem_cons.mp hp with hp1 | hp1 <;>
      rcases List.mem_cons.mp hq with hq1 | hq1
    · subst hp1; subst hq1; exact absurd rfl hne
    · subst hp1
      intro hcontra
      exact hx (hcontra ▸ List.mem_map_of_mem Prod.snd hq1)
    · subst hq1
      intro hcontra
      exact hx (hcontra ▸ List.mem_map_of_mem Prod.snd hp1)
    · exact ih ht p hp1 q hq1 hne

theorem dfsLoop_nodup (g : StableGraphM) :
    ∀ (fuel : Nat) (tasks : List DfsTask) (vis out : List Nat),
      (out ++ tasks.filterMap emitNx).Nodup →
      (∀ nx ∈ tasks.filterMap emitNx, nx ∈ vis) →
      (∀ nx ∈ out, nx ∈ vis) →
      (dfsLoop g fuel tasks vis out).Nodup := by
  intro fuel
  induction fuel with
  | zero =>
    intro tasks vis out h1 _ _
    simp only [dfsLoop]
    exact h1.of_append_left
  | succ fuel ih =>
    intro tasks vis out h1 h2 h3
    cases tasks with
    | nil =>
      simp only [dfsLoop]
      simpa using h1.of_append_left
    | cons t rest =>
      cases t with
      | visit nx =>
        simp only [dfsLoop]
        split
        · exact ih rest vis out h1 h2 h3
        · rename_i hnotvis
          have hfm : (((g.children nx).map DfsTask.visit
              ++ DfsTask.emit nx :: rest).filterMap emitNx)
              = nx :: rest.filterMap emitNx := by
            rw [List.filterMap_append, List.filterMap_map]
            have : (emitNx ∘ DfsTask.visit) = fun _ => (none : Option Nat) := rfl
            rw [this]
            simp [emitNx]
          refine ih _ _ _ ?_ ?_ ?_
          · rw [hfm]
            rw [List.nodup_middle]
            rw [List.nodup_cons]
            constructor
            · intro hmemc
              rcases List.mem_append.mp hmemc with hc | hc
              · exact hnotvis (h3 _ hc)
              · exact hnotvis (h2 _ hc)
            · simpa using h1
          · rw [hfm]
            intro m hm
            rcases List.mem_cons.mp hm with hm | hm
            · rw [hm]; exact List.mem_cons_self _ _
            · exact List.mem_cons_of_mem _ (h2 _ hm)
          · intro m hm
            exact List.mem_cons_of_mem _ (h3 _ hm)
      | emit nx =>
        simp only [dfsLoop]
        have hfm : ((DfsTask.emit nx :: rest).filterMap emitNx)
            = nx :: rest.filterMap emitNx := by
          simp [emitNx]
        refine ih _ _ _ ?_ ?_ ?_
        · rw [List.append_assoc]
          simpa [hfm] using h1
        · intro m hm
          refine h2 m ?_
          rw [hfm]
          exact List.mem_cons_of_mem _ hm
        · intro m hm
          rcases List.mem_append.mp hm with hm | hm
          · exact h3 _ hm
          · rw [List.mem_singleton.mp hm]
            refine h2 nx ?_
            rw [hfm]
            exact List.mem_cons_self _ _

theorem dfsPostOrder_nodup (g : StableGraphM) (start : Nat) :
    (dfsPostOrder g start).Nodup := by
  refine dfsLoop_nodup g _ _ _ _ ?_ ?_ ?_
  · simp [emitNx]
  · intro nx hnx
    simp [emitNx] at hnx
  · intro nx hnx
    simp at hnx

theorem graftGo_nodup (re_indices : List (Int × Int)) (literals_nx : List (Int × Nat))
    (sub : IntermediateGraph) (hsubv : (sub.nx_literals.map Prod.snd).Nodup) :
    ∀ (order : List Nat) (host : IntermediateGraph) (cache : List (Nat × Nat))
      (out : IntermediateGraph × List (Nat × Nat)),
      order.Nodup →
      (host.nx_literals.map Prod.snd).Nodup →
      (∀ p ∈ host.nx_literals, p.1 < host.graph.kinds.length) →
      graftVals sub order host.nx_literals →
      graftGo re_indices literals_nx sub order (host, cache) = some out →
      (out.1.nx_literals.map Prod.snd).Nodup := by
  intro order
  induction order with
  | nil =>
    intro host cache out _ hv _ _ h
    simp only [graftGo] at h
    cases h
    exact hv
  | cons nx rest ih =>
    intro host cache out hord hv hk hvals h
    simp only [graftGo] at h
    split at h
    · exact absurd h (by simp)
    · rename_i k hkeq
      split at h
      · exact absurd h (by simp)
      · rename_i pr2 host2 new_nx heq
        split at h
        · exact absurd h (by simp)
        · rename_i childImgs himgs
          have hordrest : rest.Nodup := (List.nodup_cons.mp hord).2
          have hnxrest : nx ∉ rest := (List.nodup_cons.mp hord).1
          -- characterize host2 from the branch equation
          have hhost2 : host2 = host ∨
              (host2 = { host with
                graph := { host.graph with kinds := host.graph.kinds ++ [k] },
                nx_literals := host.nx_literals
                  ++ [(host.graph.kinds.length,
                        tseitinOffset ((alookup sub.nx_literals nx).getD 0))] }
                ∧ ∃ lit, alookup sub.nx_literals nx = some lit
                  ∧ alookup re_indices (lit.natAbs : Int) = none) ∨
              host2 = { host with
                graph := { host.graph with kinds := host.graph.kinds ++ [k] } } := by
            split at heq
            · split at heq
              · exact absurd heq (by simp)
              · rename_i lit hlit
                split at heq
                · split at heq
                  · exact absurd heq (by simp)
                  · rename_i hnxv hlk
                    left
                    cases heq
                    rfl
                · rename_i hre
                  right; left
                  cases heq
                  refine ⟨?_, lit, hlit, hre⟩
                  rw [hlit]
                  rfl
            · right; right
              cases heq
              rfl
          -- the three invariants for host2
          have hinv2 : (host2.nx_literals.map Prod.snd).Nodup ∧
              (∀ p ∈ host2.nx_literals, p.1 < host2.graph.kinds.length) ∧
              graftVals sub rest host2.nx_literals := by
            rcases hhost2 with h2 | ⟨h2, lit, hlit, hre⟩ | h2
            · subst h2
              refine ⟨hv, hk, ?_⟩
              intro p hp
              rcases hvals p hp with hc | ⟨q, hq, hqo, hqv⟩
              · exact Or.inl hc
              · exact Or.inr ⟨q, hq, fun hmem => hqo (List.mem_cons_of_mem _ hmem), hqv⟩
            · subst h2
              rw [hlit]
              simp only [Option.getD_some]
              constructor
              · rw [List.map_append]
                rw [List.nodup_append]
                refine ⟨hv, List.nodup_singleton _, ?_⟩
                intro v hvmem
                simp only [List.map_cons, List.map_nil, List.mem_singleton]
                obtain ⟨p, hp, hpv⟩ := List.mem_map.mp hvmem
                intro hcontra
                rcases hvals p hp with hc | ⟨q, hq, hqo, hqv⟩
                · have hlarge := tseitinOffset_natAbs_large lit
                  rw [hpv.trans hcontra] at hc
                  omega
                · have hqnx : q.1 ≠ nx := fun hq1 => hqo (hq1 ▸ List.mem_cons_self _ _)
                  have hlitmem : (nx, lit) ∈ sub.nx_literals := alookup_mem hlit
                  have hne2 : q.2 ≠ lit :=
                    nodup_values_ne hsubv q hq (nx, lit) hlitmem hqnx
                  rw [← hpv, hqv] at hcontra
                  exact hne2 (tseitinOffset_injective hcontra)
              constructor
              · intro p hp
                simp only [List.length_append, List.length_cons, List.length_nil]
                rcases List.mem_append.mp hp with hp1 | hp1
                · exact Nat.lt_succ_of_lt (hk p hp1)
                · rw [List.mem_singleton.mp hp1]
                  exact Nat.lt_succ_self _
              · intro p hp
                rcases List.mem_append.mp hp with hp1 | hp1
                · rcases hvals p hp1 with hc | ⟨q, hq, hqo, hqv⟩
                  · exact Or.inl hc
                  · exact Or.inr ⟨q, hq, fun hmem => hqo (List.mem_cons_of_mem _ hmem), hqv⟩
                · rw [List.mem_singleton.mp hp1]
                  exact Or.inr ⟨(nx, lit), alookup_mem hlit, hnxrest, rfl⟩
            · subst h2
              refine ⟨hv, ?_, ?_⟩
              · intro p hp
                simp only [List.length_append, List.length_cons, List.length_nil]
                exact Nat.lt_succ_of_lt (hk p hp)
              · intro p hp
                rcases hvals p hp with hc | ⟨q, hq, hqo, hqv⟩
                · exact Or.inl hc
                · exact Or.inr ⟨q, hq, fun hmem => hqo (List.mem_cons_of_mem _ hmem), hqv⟩
          exact ih
            { host2 with graph := { host2.graph with
                edges := host2.graph.edges ++ childImgs.map (fun c => (new_nx, c)) } }
            ((nx, new_nx) :: cache) out hordrest hinv2.1 hinv2.2.1 hinv2.2.2 h

/-- C7 counterexample: a host may legally carry the real variable 1000003; the
Tseitin literal of one `add_clause` call is then assigned the same signed
value, so two distinct literal vertices (4 and 7) carry 1000003 after a
single edit. -/
theorem c7_duplicate_literal_counterexample :
    (add_clause G7 [1] (some SUB7)).result = some G7Edited ∧
      alookup G7Edited.nx_literals 4 = some 1000003 ∧
      alookup G7Edited.nx_literals 7 = some 1000003 :=
  ⟨rfl, rfl, rfl⟩

/-- C7 amended: a single completed `add_clause` preserves literal uniqueness
provided every host literal value is below the 1,000,000 offset and the host
and compiled subgraph carry pairwise distinct literal values; the offset only
partitions synthetic from real literals under that bound, and the original
unconditional claim fails once a real variable reaches the offset range. -/
theorem c7_single_edit_uniqueness (g sub g2 : IntermediateGraph) (clause : List Int)
    (h : (add_clause g clause (some sub)).result = some g2)
    (hhostv : (g.nx_literals.map Prod.snd).Nodup)
    (hhostk : ∀ p ∈ g.nx_literals, p.1 < g.graph.kinds.length)
    (hsmall : ∀ p ∈ g.nx_literals, p.2.natAbs < 1000000)
    (hsubv : (sub.nx_literals.map Prod.snd).Nodup) :
    (g2.nx_literals.map Prod.snd).Nodup := by
  unfold add_clause at h
  split at h
  · exact absurd h (by simp)
  · rename_i replace sup hcl
    split at h
    · exact absurd h (by simp)
    · rename_i t1 t2 re_indices ht
      split at h
      · exact absurd h (by simp)
      · rename_i sub2 hsub2
        injection hsub2 with hs
        subst hs
        split at h
        · exact absurd h (by simp)
        · rename_i vc hmax
          unfold spliceOutcome at h
          split at h
          · exact absurd h (by simp)
          · rename_i host cache hgr
            split at h
            · exact absurd h (by simp)
            · rename_i r hr
              simp only [Option.some.injEq] at h
              have hlits : g2.nx_literals = host.nx_literals := by
                rw [← h]
              rw [hlits]
              refine graftGo_nodup re_indices (invertAssoc g.nx_literals) sub hsubv
                (dfsPostOrder sub.graph sub.root) g [] (host, cache)
                (dfsPostOrder_nodup sub.graph sub.root) hhostv hhostk ?_ hgr
              intro p hp
              exact Or.inl (hsmall p hp)

/-- C7 amended witness: the edit of `Gc1` by `[1]` satisfies the bounds and
its result keeps all literal values pairwise distinct. -/
theorem c7_single_edit_uniqueness_witness :
    (Gc1Edited.nx_literals.map Prod.snd).Nodup :=
  c7_single_edit_uniqueness Gc1 SUBc1 Gc1Edited [1] rfl
    (by decide) (by decide) (by decide) (by decide)

/-! ### The renumber map and the missing-variable panic (C10) -/

theorem alookup_append {α β : Type} [DecidableEq α] (l1 l2 : List (α × β)) (a : α) :
    alookup (l1 ++ l2) a =
      match alookup l1 a with
      | some b => some b
      | none => alookup l2 a := by
  induction l1 with
  | nil => rfl
  | cons p rest ih =>
    obtain ⟨k, v⟩ := p
    by_cases hk : k = a
    · subst hk
      simp [alookup]
    · simp only [List.cons_append, alookup, if_neg hk]
      exact ih

theorem omapM_none_of_mem {α β : Type} {f : α → Option β} :
    ∀ {l : List α} {a : α}, a ∈ l → f a = none → omapM f l = none := by
  intro l
  induction l with
  | nil => intro a ha; simp at ha
  | cons x xs ih =>
    intro a ha hf
    unfold omapM
    rcases List.mem_cons.mp ha with ha | ha
    · rw [← ha, hf]
    · cases hfx : f x with
      | none => rfl
      | some b => rw [ih ha hf]

theorem tLoop_reindex_none :
    ∀ (nodes : List Node) (idx : Nat) (st st' : TState),
      tLoop nodes idx st = some st' →
      ∀ v : Int, alookup st'.re_index_mapping v = none ↔
        (alookup st.re_index_mapping v = none ∧ v ∉ nodeVars nodes) := by
  intro nodes
  induction nodes with
  | nil =>
    intro idx st st' h v
    simp only [tLoop] at h
    cases h
    simp [nodeVars]
  | cons nd rest ih =>
    intro idx st st' h v
    simp only [tLoop] at h
    split at h
    · exact absurd h (by simp)
    · rename_i st2 hstep
      have hrest := ih (idx + 1) st2 st' h v
      unfold tStep at hstep
      split at hstep
      · -- And node
        rename_i ch hnt
        cases hstep
        rw [hrest]
        simp [nodeVars, hnt]
      · -- Or node
        rename_i ch hnt
        cases hstep
        rw [hrest]
        simp [nodeVars, hnt]
      · -- Literal node
        rename_i l hnt
        have hvars : nodeVars (nd :: rest) = ((l.natAbs : Int)) :: nodeVars rest := by
          simp [nodeVars, hnt]
        split at hstep
        · -- renumber hit: map unchanged
          rename_i r hr
          cases hstep
          rw [hrest, hvars]
          constructor
          · intro ⟨h1, h2⟩
            refine ⟨h1, ?_⟩
            intro hmem
            rcases List.mem_cons.mp hmem with hmem | hmem
            · rw [hmem] at h1
              rw [h1] at hr
              cases hr
            · exact h2 hmem
          · intro ⟨h1, h2⟩
            exact ⟨h1, fun hmem => h2 (List.mem_cons_of_mem _ hmem)⟩
        · -- renumber miss: map extended by the new variable
          rename_i hr
          cases hstep
          rw [hrest, hvars]
          simp only [alookup_append]
          constructor
          · intro ⟨h1, h2⟩
            cases hl1 : alookup st.re_index_mapping v with
            | some b => rw [hl1] at h1; simp at h1
            | none =>
              rw [hl1] at h1
              refine ⟨rfl, ?_⟩
              intro hmem
              rcases List.mem_cons.mp hmem with hmem | hmem
              · rw [hmem] at h1
                simp [alookup] at h1
              · exact h2 hmem
          · intro ⟨h1, h2⟩
            have hne : ((l.natAbs : Int)) ≠ v :=
              fun hc => h2 (hc ▸ List.mem_cons_self _ _)
            constructor
            · rw [h1]
              show alookup [((l.natAbs : Int), st.lit_counter)] v = none
              unfold alookup
              rw [if_neg hne]
              rfl
            · exact fun hmem => h2 (List.mem_cons_of_mem _ hmem)
      · -- True/False node: the step panics
        exact absurd hstep (by simp)

/-- C10: whenever the extra clause holds a literal whose variable does not
occur among the subcircuit's literal nodes, the renumber lookup fails and
`transform_to_cnf` panics (`none`), even though the same call without the
clause succeeds; `add_clause` inherits the panic through its
`transform_to_cnf` call. -/
theorem c10_transform_missing_var_panics (g : IntermediateGraph) (S : Nat)
    (C : List Int)
    (base : (Int × Nat) × List (List Int) × List (Int × Int))
    (hbase : transform_to_cnf g S none = some base)
    (nodes : List Node) (lits : List (Int × Nat)) (trues : List Nat)
    (hreb : rebuild g (some S) = some (nodes, lits, trues))
    (l : Int) (hl : l ∈ C) (hnot : (l.natAbs : Int) ∉ nodeVars nodes) :
    transform_to_cnf g S (some C) = none := by
  simp only [transform_to_cnf, hreb] at hbase
  split at hbase
  · exact absurd hbase (by simp)
  · rename_i vCount hsup
    split at hbase
    · exact absurd hbase (by simp)
    · rename_i st hloop
      split at hbase
      · exact absurd hbase (by simp)
      · rename_i hlen
        have hnone : alookup st.re_index_mapping ((l.natAbs : Int)) = none := by
          rw [tLoop_reindex_none nodes 0 _ st hloop]
          exact ⟨rfl, hnot⟩
        have homap : omapM (fun f =>
            (alookup st.re_index_mapping ((f.natAbs : Int))).map
              (fun r => if 0 < f then r else -r)) C = none := by
          refine omapM_none_of_mem hl ?_
          rw [hnone]
          rfl
        simp only [transform_to_cnf, hreb, hsup, hloop]
        rw [if_neg hlen]
        simp only [homap]

/-- C10 witness: transforming `x1 ∧ x2` succeeds without a clause, but the
clause `[3]` mentions variable 3, which the subcircuit lacks, so
`transform_to_cnf` panics. -/
theorem c10_transform_missing_var_panics_witness :
    transform_to_cnf G3 0 (some [3]) = none :=
  c10_transform_missing_var_panics G3 0 [3]
    ((3, 4), [[-3, 1], [-3, 2], [3, -1, -2], [3]], [(1, 2), (2, 1)]) rfl
    N3 [(1, 1), (2, 0)] [] rfl 3 (by decide) (by decide)

/-! ### Tseitin transformation semantics (C2) -/

theorem getD_of_get? {α : Type} {l : List α} :
    ∀ {n : Nat} {a d : α}, l.get? n = some a → l.getD n d = a := by
  induction l with
  | nil => intro n a d h; simp at h
  | cons x t ih =>
    intro n a d h
    cases n with
    | zero => cases h; rfl
    | succ m =>
      simp only [List.get?_cons_succ] at h
      simp only [List.getD_cons_succ]
      exact ih h

theorem get?_of_getD {α : Type} {l : List α} {n : Nat} (d : α) (h : n < l.length) :
    l.get? n = some (l.getD n d) := by
  cases hg : l.get? n with
  | none => rw [List.get?_eq_none] at hg; omega
  | some a => rw [getD_of_get? hg]

theorem getD_set_self {α : Type} {l : List α} :
    ∀ {i : Nat} {x d : α}, i < l.length → (l.set i x).getD i d = x := by
  induction l with
  | nil => intro i x d h; simp at h
  | cons a t ih =>
    intro i x d h
    cases i with
    | zero => rfl
    | succ m =>
      simp only [List.set_cons_succ, List.getD_cons_succ]
      exact ih (Nat.lt_of_succ_lt_succ h)

theorem getD_set_ne {α : Type} {l : List α} :
    ∀ {i j : Nat} {x d : α}, i ≠ j → (l.set i x).getD j d = l.getD j d := by
  induction l with
  | nil => intro i j x d _; simp [List.set]
  | cons a t ih =>
    intro i j x d hne
    cases i with
    | zero =>
      cases j with
      | zero => exact absurd rfl hne
      | succ m => rfl
    | succ m =>
      cases j with
      | zero => rfl
      | succ m2 =>
        simp only [List.set_cons_succ, List.getD_cons_succ]
        exact ih (fun hc => hne (by rw [hc]))

theorem alookup_eq_none_iff_keys {α β : Type} [DecidableEq α]
    {l : List (α × β)} {a : α} :
    alookup l a = none ↔ a ∉ l.map Prod.fst := by
  induction l with
  | nil => simp [alookup]
  | cons p rest ih =>
    obtain ⟨k, v⟩ := p
    by_cases hk : k = a
    · subst hk
      simp [alookup]
    · simp only [alookup, if_neg hk, List.map_cons, List.mem_cons]
      rw [ih]
      constructor
      · intro h hmem
        rcases hmem with hmem | hmem
        · exact hk hmem.symm
        · exact h hmem
      · intro h hmem
        exact h (Or.inr hmem)

theorem rlookup_swap {α β : Type} [DecidableEq α] (l : List (α × β)) (a : α) :
    rlookup (l.map (fun p => (p.2, p.1))) a = alookup l a := by
  induction l with
  | nil => rfl
  | cons p rest ih =>
    obtain ⟨k, v⟩ := p
    by_cases hk : k = a
    · subst hk
      simp [rlookup, alookup]
    · simp only [List.map_cons, rlookup, alookup, if_neg hk]
      rw [ih]

theorem postOrd_of_rebuild (g : IntermediateGraph) (alt : Option Nat)
    {nodes : List Node} {lits : List (Int × Nat)} {trues : List Nat}
    (h : rebuild g alt = some (nodes, lits, trues)) : postOrd nodes := by
  intro i c hc
  by_cases hi : i < nodes.length
  · have hg := get?_of_getD (Node.new_bool false) hi
    exact ((rebuild_inv g alt h) i _ hg).1 c hc
  · rw [List.getD_eq_default _ _ (Nat.le_of_not_lt hi)] at hc
    simp [Node.new_bool, Node.new_node, nodeChildren] at hc

theorem list_all_congr {α : Type} {l : List α} {f g : α → Bool}
    (h : ∀ a ∈ l, f a = g a) : l.all f = l.all g := by
  induction l with
  | nil => rfl
  | cons x t ih =>
    simp only [List.all_cons]
    rw [h x (List.mem_cons_self _ _), ih (fun a ha => h a (List.mem_cons_of_mem _ ha))]

theorem list_any_congr {α : Type} {l : List α} {f g : α → Bool}
    (h : ∀ a ∈ l, f a = g a) : l.any f = l.any g := by
  induction l with
  | nil => rfl
  | cons x t ih =>
    simp only [List.any_cons]
    rw [h x (List.mem_cons_self _ _), ih (fun a ha => h a (List.mem_cons_of_mem _ ha))]

theorem evalN_congr_fuel {nodes : List Node} {τ : Int → Bool}
    (hpost : postOrd nodes) :
    ∀ (i fuel1 fuel2 : Nat), i < fuel1 → i < fuel2 →
      evalN nodes τ fuel1 i = evalN nodes τ fuel2 i := by
  intro i
  induction i using Nat.strong_induction_on with
  | _ i ih =>
    intro fuel1 fuel2 h1 h2
    cases fuel1 with
    | zero => omega
    | succ f1 =>
      cases fuel2 with
      | zero => omega
      | succ f2 =>
        simp only [evalN]
        cases hnt : (nodes.getD i (Node.new_bool false)).ntype with
        | And ch =>
          have hch : ∀ c ∈ ch, c < i := by
            intro c hc
            refine hpost i c ?_
            rw [nodeChildren, hnt]
            exact hc
          dsimp only
          refine list_all_congr ?_
          intro c hcc
          exact ih c (hch c hcc) f1 f2 (by have := hch c hcc; omega)
            (by have := hch c hcc; omega)
        | Or ch =>
          have hch : ∀ c ∈ ch, c < i := by
            intro c hc
            refine hpost i c ?_
            rw [nodeChildren, hnt]
            exact hc
          dsimp only
          refine list_any_congr ?_
          intro c hcc
          exact ih c (hch c hcc) f1 f2 (by have := hch c hcc; omega)
            (by have := hch c hcc; omega)
        | Literal l => rfl
        | True => rfl
        | False => rfl

theorem evalIdx_and {nodes : List Node} {τ : Int → Bool}
    (hpost : postOrd nodes) {i : Nat} {ch : List Nat}
    (hnt : (nodes.getD i (Node.new_bool false)).ntype = NodeType.And ch) :
    evalIdx nodes τ i = ch.all (fun c => evalIdx nodes τ c) := by
  unfold evalIdx
  conv =>
    lhs
    rw [evalN]
  rw [hnt]
  refine list_all_congr ?_
  intro c hcc
  have hci : c < i := hpost i c (by rw [nodeChildren, hnt]; exact hcc)
  exact evalN_congr_fuel hpost c i (c + 1) (by omega) (by omega)

theorem evalIdx_or {nodes : List Node} {τ : Int → Bool}
    (hpost : postOrd nodes) {i : Nat} {ch : List Nat}
    (hnt : (nodes.getD i (Node.new_bool false)).ntype = NodeType.Or ch) :
    evalIdx nodes τ i = ch.any (fun c => evalIdx nodes τ c) := by
  unfold evalIdx
  conv =>
    lhs
    rw [evalN]
  rw [hnt]
  refine list_any_congr ?_
  intro c hcc
  have hci : c < i := hpost i c (by rw [nodeChildren, hnt]; exact hcc)
  exact evalN_congr_fuel hpost c i (c + 1) (by omega) (by omega)

theorem evalIdx_lit {nodes : List Node} {τ : Int → Bool} {i : Nat} {l : Int}
    (hnt : (nodes.getD i (Node.new_bool false)).ntype = NodeType.Literal l) :
    evalIdx nodes τ i = evalLit τ l := by
  unfold evalIdx
  rw [evalN, hnt]

theorem evalCircuit_eq_evalIdx {nodes : List Node} {τ : Int → Bool}
    (hpost : postOrd nodes) (hne : nodes.length ≠ 0) :
    evalCircuit nodes τ = evalIdx nodes τ (nodes.length - 1) := by
  unfold evalCircuit evalIdx
  exact evalN_congr_fuel hpost (nodes.length - 1) nodes.length (nodes.length - 1 + 1)
    (by omega) (by omega)

theorem gatesBefore_succ (nodes : List Node) (k : Nat) (hk : k < nodes.length) :
    gatesBefore nodes (k + 1) =
      gatesBefore nodes k +
        (if isGate (nodes.getD k (Node.new_bool false)) then 1 else 0) := by
  unfold gatesBefore
  rw [List.take_succ, ← List.get?_eq_getElem?,
    get?_of_getD (Node.new_bool false) hk]
  simp only [Option.toList_some, List.filter_append, List.length_append]
  congr 1
  by_cases hg : isGate (nodes.getD k (Node.new_bool false))
  · simp [hg, ← List.getD_eq_getElem?_getD]
  · simp [hg, ← List.getD_eq_getElem?_getD]

theorem gatesBefore_stable (nodes : List Node) (m : Nat)
    (hm : nodes.length ≤ m) : gatesBefore nodes (m + 1) = gatesBefore nodes m := by
  unfold gatesBefore
  rw [List.take_of_length_le hm, List.take_of_length_le (by omega)]

theorem gatesBefore_mono (nodes : List Node) :
    ∀ {k k' : Nat}, k ≤ k' → gatesBefore nodes k ≤ gatesBefore nodes k' := by
  intro k k' h
  induction k' with
  | zero => cases Nat.le_zero.mp h; exact Nat.le_refl _
  | succ m ih =>
    rcases Nat.lt_or_ge k (m + 1) with hlt | hge
    · have h1 : k ≤ m := Nat.lt_succ_iff.mp hlt
      refine Nat.le_trans (ih h1) ?_
      by_cases hm : m < nodes.length
      · rw [gatesBefore_succ nodes m hm]
        omega
      · rw [gatesBefore_stable nodes m (Nat.le_of_not_lt hm)]
    · have : k = m + 1 := Nat.le_antisymm h hge
      rw [this]

theorem gatesBefore_strict (nodes : List Node) {i i' : Nat}
    (hii : i < i') (hi' : i' ≤ nodes.length)
    (hg : isGate (nodes.getD i (Node.new_bool false)) = true) :
    gatesBefore nodes i < gatesBefore nodes i' := by
  have h1 : gatesBefore nodes (i + 1) = gatesBefore nodes i + 1 := by
    rw [gatesBefore_succ nodes i (by omega), hg]
    simp
  have h2 := gatesBefore_mono nodes (show i + 1 ≤ i' by omega)
  omega

theorem blockOf_congr {cvA cvB : List Int} {a : Int} {nd : Node}
    (h : ∀ c ∈ nodeChildren nd, cvA.getD c 0 = cvB.getD c 0) :
    blockOf cvA a nd = blockOf cvB a nd := by
  unfold blockOf
  cases hnt : nd.ntype with
  | And ch =>
    have hc : ∀ c ∈ ch, cvA.getD c 0 = cvB.getD c 0 := by
      intro c hcm
      exact h c (by rw [nodeChildren, hnt]; exact hcm)
    dsimp only
    congr 1
    · exact List.map_congr_left fun c hcm => by rw [hc c hcm]
    · refine congrArg (fun z => [a :: z]) ?_
      exact List.map_congr_left fun c hcm => by rw [hc c hcm]
  | Or ch =>
    have hc : ∀ c ∈ ch, cvA.getD c 0 = cvB.getD c 0 := by
      intro c hcm
      exact h c (by rw [nodeChildren, hnt]; exact hcm)
    dsimp only
    congr 1
    · exact List.map_congr_left fun c hcm => by rw [hc c hcm]
    · refine congrArg (fun z => [(-a) :: z]) ?_
      exact List.map_congr_left fun c hcm => by rw [hc c hcm]
  | Literal l => rfl
  | True => rfl
  | False => rfl

theorem blocksUpTo_succ (nodes : List Node) (cv : List Int) (k : Nat) :
    blocksUpTo nodes cv (k + 1) =
      blocksUpTo nodes cv k
        ++ blockOf cv (cv.getD k 0) (nodes.getD k (Node.new_bool false)) := by
  unfold blocksUpTo
  rw [List.range_succ]
  simp

theorem blocksUpTo_set (nodes : List Node) (hpost : postOrd nodes)
    (cv : List Int) (k : Nat) (x : Int) {m : Nat} (hm : m ≤ k) :
    blocksUpTo nodes (cv.set k x) m = blocksUpTo nodes cv m := by
  unfold blocksUpTo
  refine congrArg List.join ?_
  refine List.map_congr_left fun i hi => ?_
  have him : i < m := List.mem_range.mp hi
  have hia : (cv.set k x).getD i 0 = cv.getD i 0 := getD_set_ne (by omega)
  rw [hia]
  refine blockOf_congr ?_
  intro c hc
  have hci : c < i := hpost i c hc
  exact getD_set_ne (by omega)

theorem alookup_extend_some {R : List (Int × Int)} {v j : Int}
    (h : alookup R v = some j) (p : Int × Int) :
    alookup (R ++ [p]) v = some j := by
  rw [alookup_append, h]

theorem alookup_extend_none {R : List (Int × Int)} {v v0 j0 : Int}
    (h : alookup R v = none) :
    alookup (R ++ [(v0, j0)]) v = if v0 = v then some j0 else none := by
  rw [alookup_append, h]
  rfl

theorem nodeVars_take_succ_lit (nodes : List Node) {k : Nat} {nd : Node}
    (htake : nodes.take (k + 1) = nodes.take k ++ [nd]) {l : Int}
    (hnt : nd.ntype = NodeType.Literal l) :
    nodeVars (nodes.take (k + 1)) = nodeVars (nodes.take k) ++ [((l.natAbs : Int))] := by
  rw [htake]
  unfold nodeVars
  rw [List.filterMap_append]
  congr 1
  simp [hnt]

theorem nodeVars_take_succ_gate (nodes : List Node) {k : Nat} {nd : Node}
    (htake : nodes.take (k + 1) = nodes.take k ++ [nd])
    (hnl : ∀ l : Int, nd.ntype ≠ NodeType.Literal l) :
    nodeVars (nodes.take (k + 1)) = nodeVars (nodes.take k) := by
  rw [htake]
  unfold nodeVars
  rw [List.filterMap_append]
  have : List.filterMap (fun nd2 =>
      match nd2.ntype with
      | NodeType.Literal l => some ((l.natAbs : Int))
      | _ => none) [nd] = [] := by
    cases hnt : nd.ntype with
    | Literal l => exact absurd hnt (hnl l)
    | And ch => simp [hnt]
    | Or ch => simp [hnt]
    | True => simp [hnt]
    | False => simp [hnt]
  rw [this, List.append_nil]

theorem tLoop_invariant (nodes : List Node) (V : Int) (hpost : postOrd nodes) :
    ∀ (rest : List Node) (k : Nat) (st st' : TState),
      nodes.drop k = rest → k ≤ nodes.length →
      TLoopInv nodes V k st →
      tLoop rest k st = some st' →
      TLoopInv nodes V nodes.length st' := by
  intro rest
  induction rest with
  | nil =>
    intro k st st' hdrop hkle hinv h
    simp only [tLoop] at h
    cases h
    have hk : nodes.length ≤ k := List.drop_eq_nil_iff_le.mp hdrop
    have : k = nodes.length := Nat.le_antisymm hkle hk
    rw [← this]
    exact hinv
  | cons nd rest2 ih =>
    intro k st st' hdrop hkle hinv h
    have hk : k < nodes.length := by
      by_contra hc
      rw [List.drop_eq_nil_iff_le.mpr (Nat.le_of_not_lt hc)] at hdrop
      cases hdrop
    have hget : nodes.get? k = some nd := by
      have h0 := List.get?_drop nodes k 0
      rw [hdrop] at h0
      simpa using h0.symm
    have hdrop2 : nodes.drop (k + 1) = rest2 := by
      have h1 := congrArg (List.drop 1) hdrop
      rw [List.drop_drop] at h1
      simpa using h1
    have hndD : nodes.getD k (Node.new_bool false) = nd := getD_of_get? hget
    have htake : nodes.take (k + 1) = nodes.take k ++ [nd] := by
      rw [List.take_succ, ← List.get?_eq_getElem?, hget]
      rfl
    have hchk : ∀ c ∈ nodeChildren nd, c < k := by
      intro c hc
      refine hpost k c ?_
      rw [hndD]
      exact hc
    simp only [tLoop] at h
    split at h
    · exact absurd h (by simp)
    · rename_i st2 hstep
      refine ih (k + 1) st2 st' hdrop2 (by omega) ?_ h
      unfold tStep at hstep
      split at hstep
      · -- And gate
        rename_i ch hch
        cases hstep
        have hgate : isGate nd = true := by rw [isGate, hch]
        have hgb : gatesBefore nodes (k + 1) = gatesBefore nodes k + 1 := by
          rw [gatesBefore_succ nodes k hk, hndD, hgate]
          simp
        have hnv : nodeVars (nodes.take (k + 1)) = nodeVars (nodes.take k) :=
          nodeVars_take_succ_gate nodes htake (fun l hl => by rw [hch] at hl; cases hl)
        have hkcv : k < st.clause_var.length := by rw [hinv.len_cv]; exact hk
        refine ⟨?_, ?_, ?_, hinv.rng, hinv.inj, ?_, hinv.keys, ?_, ?_, ?_, ?_⟩
        · simp only [List.length_set]
          exact hinv.len_cv
        · rw [hnv]
          exact hinv.litc
        · rw [hgb]
          rw [hinv.ctr]
          push_cast
          ring
        · intro v
          rw [hnv]
          exact hinv.dom v
        · intro i hik l hl
          have hik2 : i < k := by
            rcases Nat.lt_succ_iff_lt_or_eq.mp hik with hik2 | hik2
            · exact hik2
            · rw [hik2, hndD, hch] at hl
              cases hl
          obtain ⟨j, hj1, hj2⟩ := hinv.cv_lit i hik2 l hl
          refine ⟨j, hj1, ?_⟩
          rw [getD_set_ne (by omega)]
          exact hj2
        · intro i hik hgi
          rcases Nat.lt_succ_iff_lt_or_eq.mp hik with hik2 | hik2
          · rw [getD_set_ne (by omega)]
            exact hinv.cv_gate i hik2 hgi
          · rw [hik2, getD_set_self hkcv]
            exact hinv.ctr
        · intro i hik
          rcases Nat.lt_succ_iff_lt_or_eq.mp hik with hik2 | hik2
          · exact hinv.knd i hik2
          · left
            rw [hik2, hndD]
            exact hgate
        · show st.cnf ++ _ ++ _ = _
          rw [blocksUpTo_succ, blocksUpTo_set nodes hpost _ _ _ (Nat.le_refl k)]
          rw [hinv.cnfsh, List.append_assoc]
          congr 1
          rw [getD_set_self hkcv, hndD]
          unfold blockOf
          rw [hch]
          dsimp only
          congr 1
          · refine List.map_congr_left fun c hcm => ?_
            rw [getD_set_ne]
            have := hchk c (by rw [nodeChildren, hch]; exact hcm)
            omega
          · refine congrArg (fun z => [st.counter :: z]) ?_
            refine List.map_congr_left fun c hcm => ?_
            rw [getD_set_ne]
            have := hchk c (by rw [nodeChildren, hch]; exact hcm)
            omega
      · -- Or gate
        rename_i ch hch
        cases hstep
        have hgate : isGate nd = true := by rw [isGate, hch]
        have hgb : gatesBefore nodes (k + 1) = gatesBefore nodes k + 1 := by
          rw [gatesBefore_succ nodes k hk, hndD, hgate]
          simp
        have hnv : nodeVars (nodes.take (k + 1)) = nodeVars (nodes.take k) :=
          nodeVars_take_succ_gate nodes htake (fun l hl => by rw [hch] at hl; cases hl)
        have hkcv : k < st.clause_var.length := by rw [hinv.len_cv]; exact hk
        refine ⟨?_, ?_, ?_, hinv.rng, hinv.inj, ?_, hinv.keys, ?_, ?_, ?_, ?_⟩
        · simp only [List.length_set]
          exact hinv.len_cv
        · rw [hnv]
          exact hinv.litc
        · rw [hgb]
          rw [hinv.ctr]
          push_cast
          ring
        · intro v
          rw [hnv]
          exact hinv.dom v
        · intro i hik l hl
          have hik2 : i < k := by
            rcases Nat.lt_succ_iff_lt_or_eq.mp hik with hik2 | hik2
            · exact hik2
            · rw [hik2, hndD, hch] at hl
              cases hl
          obtain ⟨j, hj1, hj2⟩ := hinv.cv_lit i hik2 l hl
          refine ⟨j, hj1, ?_⟩
          rw [getD_set_ne (by omega)]
          exact hj2
        · intro i hik hgi
          rcases Nat.lt_succ_iff_lt_or_eq.mp hik with hik2 | hik2
          · rw [getD_set_ne (by omega)]
            exact hinv.cv_gate i hik2 hgi
          · rw [hik2, getD_set_self hkcv]
            exact hinv.ctr
        · intro i hik
          rcases Nat.lt_succ_iff_lt_or_eq.mp hik with hik2 | hik2
          · exact hinv.knd i hik2
          · left
            rw [hik2, hndD]
            exact hgate
        · show st.cnf ++ _ ++ _ = _
          rw [blocksUpTo_succ, blocksUpTo_set nodes hpost _ _ _ (Nat.le_refl k)]
          rw [hinv.cnfsh, List.append_assoc]
          congr 1
          rw [getD_set_self hkcv, hndD]
          unfold blockOf
          rw [hch]
          dsimp only
          congr 1
          · refine List.map_congr_left fun c hcm => ?_
            rw [getD_set_ne]
            have := hchk c (by rw [nodeChildren, hch]; exact hcm)
            omega
          · refine congrArg (fun z => [(-st.counter) :: z]) ?_
            refine List.map_congr_left fun c hcm => ?_
            rw [getD_set_ne]
            have := hchk c (by rw [nodeChildren, hch]; exact hcm)
            omega
      · -- literal
        rename_i l hch
        have hnotg : isGate nd = false := by rw [isGate, hch]
        have hgb : gatesBefore nodes (k + 1) = gatesBefore nodes k := by
          rw [gatesBefore_succ nodes k hk, hndD, hnotg]
          simp
        have hnv : nodeVars (nodes.take (k + 1))
            = nodeVars (nodes.take k) ++ [((l.natAbs : Int))] :=
          nodeVars_take_succ_lit nodes htake hch
        have hkcv : k < st.clause_var.length := by rw [hinv.len_cv]; exact hk
        have hblock : blockOf (st.clause_var.set k
              (if 0 < l then st.lit_counter else -st.lit_counter))
              ((st.clause_var.set k (if 0 < l then st.lit_counter else -st.lit_counter)).getD k 0)
              (nodes.getD k (Node.new_bool false)) = [] := by
          unfold blockOf
          rw [hndD, hch]
        split at hstep
        · -- renumber hit
          rename_i r hr
          cases hstep
          have hmem : ((l.natAbs : Int)) ∈ nodeVars (nodes.take k) := by
            by_contra hc
            rw [← hinv.dom] at hc
            rw [hc] at hr
            cases hr
          refine ⟨?_, ?_, ?_, hinv.rng, hinv.inj, ?_, hinv.keys, ?_, ?_, ?_, ?_⟩
          · simp only [List.length_set]
            exact hinv.len_cv
          · rw [hnv, hinv.litc]
            congr 2
            rw [List.toFinset_append]
            have hsub : ([((l.natAbs : Int))]).toFinset ⊆
                (nodeVars (nodes.take k)).toFinset := by
              intro x hx
              rw [List.mem_toFinset, List.mem_singleton] at hx
              rw [hx]
              exact List.mem_toFinset.mpr hmem
            rw [Finset.union_eq_left.mpr hsub]
          · rw [hgb]
            exact hinv.ctr
          · intro v
            show alookup st.re_index_mapping v = none ↔ v ∉ nodeVars (nodes.take (k + 1))
            rw [hnv]
            constructor
            · intro hv
              rw [List.mem_append]
              intro hcmem
              rcases hcmem with hcmem | hcmem
              · exact (hinv.dom v).mp hv hcmem
              · rw [List.mem_singleton] at hcmem
                rw [hcmem] at hv
                rw [hv] at hr
                cases hr
            · intro hv
              refine (hinv.dom v).mpr ?_
              intro hc
              exact hv (List.mem_append.mpr (Or.inl hc))
          · intro i hik l2 hl2
            rcases Nat.lt_succ_iff_lt_or_eq.mp hik with hik2 | hik2
            · obtain ⟨j, hj1, hj2⟩ := hinv.cv_lit i hik2 l2 hl2
              refine ⟨j, hj1, ?_⟩
              rw [getD_set_ne (by omega)]
              exact hj2
            · rw [hik2, hndD, hch] at hl2
              cases hl2
              refine ⟨r, hr, ?_⟩
              rw [hik2, getD_set_self hkcv]
          · intro i hik hgi
            rcases Nat.lt_succ_iff_lt_or_eq.mp hik with hik2 | hik2
            · rw [getD_set_ne (by omega)]
              exact hinv.cv_gate i hik2 hgi
            · rw [hik2, hndD, hnotg] at hgi
              cases hgi
          · intro i hik
            rcases Nat.lt_succ_iff_lt_or_eq.mp hik with hik2 | hik2
            · exact hinv.knd i hik2
            · right
              rw [hik2, hndD]
              exact ⟨l, hch⟩
          · show st.cnf = _
            rw [blocksUpTo_succ, blocksUpTo_set nodes hpost _ _ _ (Nat.le_refl k)]
            rw [hinv.cnfsh]
            have hb : blockOf (st.clause_var.set k (if 0 < l then r else -r))
                ((st.clause_var.set k (if 0 < l then r else -r)).getD k 0)
                (nodes.getD k (Node.new_bool false)) = [] := by
              unfold blockOf
              rw [hndD, hch]
            rw [hb, List.append_nil]
        · -- renumber miss
          rename_i hr
          cases hstep
          have hnmem : ((l.natAbs : Int)) ∉ nodeVars (nodes.take k) :=
            (hinv.dom _).mp hr
          have hkeysnone : ((l.natAbs : Int)) ∉ st.re_index_mapping.map Prod.fst :=
            alookup_eq_none_iff_keys.mp hr
          have hlitc_pos : 1 ≤ st.lit_counter := by
            rw [hinv.litc]
            have : (0 : Int) ≤ ((nodeVars (nodes.take k)).toFinset.card : Int) := by
              positivity
            omega
          refine ⟨?_, ?_, ?_, ?_, ?_, ?_, ?_, ?_, ?_, ?_, ?_⟩
          · simp only [List.length_set]
            exact hinv.len_cv
          · show st.lit_counter + 1 = _
            rw [hnv, hinv.litc]
            rw [List.toFinset_append]
            have : (nodeVars (nodes.take k)).toFinset ∪
                ([((l.natAbs : Int))]).toFinset
                = insert ((l.natAbs : Int)) (nodeVars (nodes.take k)).toFinset := by
              simp [Finset.union_comm, Finset.insert_eq]
            rw [this, Finset.card_insert_of_not_mem (fun hc =>
              hnmem (List.mem_toFinset.mp hc))]
            push_cast
            ring
          · rw [hgb]
            exact hinv.ctr
          · intro v j hj
            show 1 ≤ j ∧ j < st.lit_counter + 1
            rw [alookup_append] at hj
            cases hv : alookup st.re_index_mapping v with
            | some j2 =>
              rw [hv] at hj
              cases hj
              have := hinv.rng v _ hv
              omega
            | none =>
              rw [hv] at hj
              by_cases hveq : ((l.natAbs : Int)) = v
              · rw [show alookup [(((l.natAbs : Int)), st.lit_counter)] v
                    = some st.lit_counter by unfold alookup; rw [if_pos hveq]] at hj
                cases hj
                omega
              · rw [show alookup [(((l.natAbs : Int)), st.lit_counter)] v
                    = none by unfold alookup; rw [if_neg hveq]; rfl] at hj
                cases hj
          · intro v1 v2 j h1 h2
            rw [alookup_append] at h1 h2
            cases hv1 : alookup st.re_index_mapping v1 with
            | some j1 =>
              rw [hv1] at h1
              cases h1
              cases hv2 : alookup st.re_index_mapping v2 with
              | some j2 =>
                rw [hv2] at h2
                cases h2
                exact hinv.inj v1 v2 j hv1 hv2
              | none =>
                rw [hv2] at h2
                by_cases hveq : ((l.natAbs : Int)) = v2
                · rw [show alookup [(((l.natAbs : Int)), st.lit_counter)] v2
                      = some st.lit_counter by unfold alookup; rw [if_pos hveq]] at h2
                  cases h2
                  have := hinv.rng v1 _ hv1
                  omega
                · rw [show alookup [(((l.natAbs : Int)), st.lit_counter)] v2
                      = none by unfold alookup; rw [if_neg hveq]; rfl] at h2
                  cases h2
            | none =>
              rw [hv1] at h1
              by_cases hveq : ((l.natAbs : Int)) = v1
              · rw [show alookup [(((l.natAbs : Int)), st.lit_counter)] v1
                    = some st.lit_counter by unfold alookup; rw [if_pos hveq]] at h1
                cases h1
                cases hv2 : alookup st.re_index_mapping v2 with
                | some j2 =>
                  rw [hv2] at h2
                  cases h2
                  have := hinv.rng v2 _ hv2
                  omega
                | none =>
                  rw [hv2] at h2
                  by_cases hveq2 : ((l.natAbs : Int)) = v2
                  · rw [← hveq, ← hveq2]
                  · rw [show alookup [(((l.natAbs : Int)), st.lit_counter)] v2
                        = none by unfold alookup; rw [if_neg hveq2]; rfl] at h2
                    cases h2
              · rw [show alookup [(((l.natAbs : Int)), st.lit_counter)] v1
                    = none by unfold alookup; rw [if_neg hveq]; rfl] at h1
                cases h1
          · intro v
            rw [hnv, alookup_append]
            cases hv : alookup st.re_index_mapping v with
            | some j =>
              simp only []
              constructor
              · intro hc
                cases hc
              · intro hc
                exfalso
                refine hc (List.mem_append.mpr (Or.inl ?_))
                by_contra hc2
                rw [← hinv.dom v] at hc2
                rw [hc2] at hv
                cases hv
            | none =>
              have hvnmem : v ∉ nodeVars (nodes.take k) := (hinv.dom v).mp hv
              by_cases hveq : ((l.natAbs : Int)) = v
              · rw [show alookup [(((l.natAbs : Int)), st.lit_counter)] v
                    = some st.lit_counter by unfold alookup; rw [if_pos hveq]]
                constructor
                · intro hc
                  cases hc
                · intro hc
                  exfalso
                  refine hc (List.mem_append.mpr (Or.inr ?_))
                  simp [← hveq]
              · rw [show alookup [(((l.natAbs : Int)), st.lit_counter)] v
                    = none by unfold alookup; rw [if_neg hveq]; rfl]
                constructor
                · intro _ hc
                  rcases List.mem_append.mp hc with hc | hc
                  · exact hvnmem hc
                  · rw [List.mem_singleton] at hc
                    exact hveq hc.symm
                · intro _
                  rfl
          · rw [List.map_append]
            simp only [List.map_cons, List.map_nil]
            rw [List.nodup_append]
            exact ⟨hinv.keys, List.nodup_singleton _,
              fun x hx hx2 => by
                rw [List.mem_singleton] at hx2
                rw [hx2] at hx
                exact hkeysnone hx⟩
          · intro i hik l2 hl2
            rcases Nat.lt_succ_iff_lt_or_eq.mp hik with hik2 | hik2
            · obtain ⟨j, hj1, hj2⟩ := hinv.cv_lit i hik2 l2 hl2
              refine ⟨j, alookup_extend_some hj1 _, ?_⟩
              rw [getD_set_ne (by omega)]
              exact hj2
            · rw [hik2, hndD, hch] at hl2
              cases hl2
              refine ⟨st.lit_counter, ?_, ?_⟩
              · rw [alookup_extend_none hr]
                rw [if_pos rfl]
              · rw [hik2, getD_set_self hkcv]
          · intro i hik hgi
            rcases Nat.lt_succ_iff_lt_or_eq.mp hik with hik2 | hik2
            · rw [getD_set_ne (by omega)]
              exact hinv.cv_gate i hik2 hgi
            · rw [hik2, hndD, hnotg] at hgi
              cases hgi
          · intro i hik
            rcases Nat.lt_succ_iff_lt_or_eq.mp hik with hik2 | hik2
            · exact hinv.knd i hik2
            · right
              rw [hik2, hndD]
              exact ⟨l, hch⟩
          · show st.cnf = _
            rw [blocksUpTo_succ, blocksUpTo_set nodes hpost _ _ _ (Nat.le_refl k)]
            rw [hinv.cnfsh, hblock, List.append_nil]
      · -- True/False: the loop panics
        exact absurd hstep (by simp)

theorem tLoopInv_init (nodes : List Node) (V : Int) :
    TLoopInv nodes V 0
      { re_index_mapping := [], cnf := [], counter := V + 1,
        lit_counter := 1, clause_var := List.replicate nodes.length 0 } := by
  refine ⟨?_, ?_, ?_, ?_, ?_, ?_, ?_, ?_, ?_, ?_, ?_⟩
  · exact List.length_replicate _ _
  · simp [nodeVars]
  · simp [gatesBefore]
  · intro v j hj
    cases hj
  · intro v1 v2 j h1 h2
    cases h1
  · intro v
    simp [alookup, nodeVars]
  · simp
  · intro i hik
    omega
  · intro i hik
    omega
  · intro i hik
    omega
  · simp [blocksUpTo]

theorem evalLit_pos {σ : Int → Bool} {a : Int} (ha : 0 < a) :
    evalLit σ a = σ a := by
  unfold evalLit
  rw [if_pos ha]

theorem evalLit_neg_of_pos {σ : Int → Bool} {a : Int} (ha : 0 < a) :
    evalLit σ (-a) = !(σ a) := by
  unfold evalLit
  rw [if_neg (by omega), neg_neg]

theorem evalLit_neg {σ : Int → Bool} {x : Int} (hx : x ≠ 0) :
    evalLit σ (-x) = !(evalLit σ x) := by
  unfold evalLit
  rcases Int.lt_or_lt_of_ne hx with hlt | hlt
  · rw [if_pos (by omega), if_neg (by omega), Bool.not_not]
  · rw [if_neg (by omega), if_pos hlt, neg_neg]

theorem lit_corr {σ : Int → Bool} {R : List (Int × Int)} {l j : Int}
    (hj : alookup R ((l.natAbs : Int)) = some j) (hj1 : 1 ≤ j) :
    evalLit σ (if 0 < l then j else -j) =
      evalLit (fun v =>
        match alookup R v with
        | some j2 => σ j2
        | none => false) l := by
  by_cases hl : 0 < l
  · rw [if_pos hl, evalLit_pos (by omega), evalLit_pos hl]
    have habs : ((l.natAbs : Int)) = l := by omega
    rw [habs] at hj
    show σ j = (match alookup R l with
      | some j2 => σ j2
      | none => false)
    rw [hj]
  · rw [if_neg hl, evalLit_neg_of_pos (by omega : (0 : Int) < j)]
    unfold evalLit
    rw [if_neg hl]
    have habs : ((l.natAbs : Int)) = -l := by omega
    rw [habs] at hj
    show (!(σ j)) = !(match alookup R (-l) with
      | some j2 => σ j2
      | none => false)
    rw [hj]

theorem alookup_tail_inj {R : List (Int × Int)} {p : Int × Int}
    (hkeys : (((p :: R).map Prod.fst)).Nodup)
    (hinj : ∀ v1 v2 j, alookup (p :: R) v1 = some j →
      alookup (p :: R) v2 = some j → v1 = v2) :
    ∀ v1 v2 j, alookup R v1 = some j → alookup R v2 = some j → v1 = v2 := by
  obtain ⟨k0, v0⟩ := p
  simp only [List.map_cons, List.nodup_cons] at hkeys
  obtain ⟨hk0, _⟩ := hkeys
  intro v1 v2 j h1 h2
  have hv1k : v1 ≠ k0 := by
    intro hc
    rw [hc] at h1
    rw [alookup_eq_none_iff_keys.mpr hk0] at h1
    cases h1
  have hv2k : v2 ≠ k0 := by
    intro hc
    rw [hc] at h2
    rw [alookup_eq_none_iff_keys.mpr hk0] at h2
    cases h2
  refine hinj v1 v2 j ?_ ?_
  · unfold alookup
    rw [if_neg (fun hc => hv1k hc.symm)]
    exact h1
  · unfold alookup
    rw [if_neg (fun hc => hv2k hc.symm)]
    exact h2

theorem lookup_invert {R : List (Int × Int)}
    (hkeys : (R.map Prod.fst).Nodup)
    (hinj : ∀ v1 v2 j, alookup R v1 = some j → alookup R v2 = some j → v1 = v2) :
    ∀ {v j : Int}, alookup R v = some j →
      alookup (R.map (fun p => (p.2, p.1))) j = some v := by
  induction R with
  | nil => intro v j h; cases h
  | cons p R2 ih =>
    obtain ⟨k0, v0⟩ := p
    intro v j h
    by_cases hkv : k0 = v
    · subst hkv
      unfold alookup at h
      rw [if_pos rfl] at h
      cases h
      simp only [List.map_cons]
      unfold alookup
      rw [if_pos rfl]
    · unfold alookup at h
      rw [if_neg hkv] at h
      by_cases hvj : v0 = j
      · exfalso
        subst hvj
        have hk0look : alookup ((k0, v0) :: R2) k0 = some v0 := by
          unfold alookup
          rw [if_pos rfl]
        have hvlook : alookup ((k0, v0) :: R2) v = some v0 := by
          unfold alookup
          rw [if_neg hkv]
          exact h
        exact hkv (hinj k0 v v0 hk0look hvlook)
      · simp only [List.map_cons]
        unfold alookup
        rw [if_neg hvj]
        refine ih ?_ (alookup_tail_inj hkeys hinj) h
        simp only [List.map_cons, List.nodup_cons] at hkeys
        exact hkeys.2

theorem lookup_invert_rev {R : List (Int × Int)}
    (hkeys : (R.map Prod.fst).Nodup) :
    ∀ {v j : Int}, alookup (R.map (fun p => (p.2, p.1))) j = some v →
      alookup R v = some j := by
  induction R with
  | nil => intro v j h; cases h
  | cons p R2 ih =>
    obtain ⟨k0, v0⟩ := p
    simp only [List.map_cons, List.nodup_cons] at hkeys
    obtain ⟨hk0, hkeys2⟩ := hkeys
    intro v j h
    simp only [List.map_cons] at h
    unfold alookup at h
    by_cases hvj : v0 = j
    · rw [if_pos hvj] at h
      cases h
      unfold alookup
      rw [if_pos rfl]
      rw [hvj]
    · rw [if_neg hvj] at h
      have h2 := ih hkeys2 h
      have hvne : v ≠ k0 := by
        intro hc
        rw [hc] at h2
        rw [alookup_eq_none_iff_keys.mpr hk0] at h2
        cases h2
      unfold alookup
      rw [if_neg (fun hc => hvne hc.symm)]
      exact h2

theorem blockOf_mem_blocks {nodes : List Node} {cv : List Int} {i : Nat}
    (hi : i < nodes.length) {cl : List Int}
    (hcl : cl ∈ blockOf cv (cv.getD i 0) (nodes.getD i (Node.new_bool false))) :
    cl ∈ blocksUpTo nodes cv nodes.length := by
  unfold blocksUpTo
  rw [List.mem_join]
  exact ⟨_, List.mem_map_of_mem _ (List.mem_range.mpr hi), hcl⟩

theorem clauseHolds_pair (σ : Int → Bool) (a b : Int) :
    clauseHolds σ [a, b] = (evalLit σ a || evalLit σ b) := by
  simp [clauseHolds]

theorem clauseHolds_cons (σ : Int → Bool) (a : Int) (rest : List Int) :
    clauseHolds σ (a :: rest) = (evalLit σ a || clauseHolds σ rest) := by
  simp [clauseHolds]

theorem clauseHolds_single (σ : Int → Bool) (a : Int) :
    clauseHolds σ [a] = evalLit σ a := by
  simp [clauseHolds]

theorem corrA (nodes : List Node) (cv : List Int) (R : List (Int × Int)) (V : Int)
    (σ : Int → Bool) (hpost : postOrd nodes) (hV0 : 0 ≤ V)
    (hcv_lit : ∀ i, i < nodes.length →
      ∀ l, (nodes.getD i (Node.new_bool false)).ntype = NodeType.Literal l →
      ∃ j, alookup R ((l.natAbs : Int)) = some j ∧
        cv.getD i 0 = if 0 < l then j else -j)
    (hcv_gate : ∀ i, i < nodes.length →
      isGate (nodes.getD i (Node.new_bool false)) = true →
      cv.getD i 0 = V + 1 + (gatesBefore nodes i : Int))
    (hknd : ∀ i, i < nodes.length →
      isGate (nodes.getD i (Node.new_bool false)) = true ∨
      ∃ l, (nodes.getD i (Node.new_bool false)).ntype = NodeType.Literal l)
    (hrng : ∀ v j, alookup R v = some j → 1 ≤ j)
    (hsat : ∀ cl ∈ blocksUpTo nodes cv nodes.length, clauseHolds σ cl = true) :
    ∀ i, i < nodes.length →
      evalLit σ (cv.getD i 0) =
        evalIdx nodes (fun v =>
          match alookup R v with
          | some j2 => σ j2
          | none => false) i := by
  have hcvnz : ∀ c, c < nodes.length → cv.getD c 0 ≠ 0 := by
    intro c hc
    rcases hknd c hc with hg | ⟨l, hl⟩
    · rw [hcv_gate c hc hg]
      have : (0 : Int) ≤ (gatesBefore nodes c : Int) := by positivity
      omega
    · obtain ⟨j, hj, hcvv⟩ := hcv_lit c hc l hl
      have := hrng _ _ hj
      rw [hcvv]
      by_cases h0l : 0 < l
      · rw [if_pos h0l]; omega
      · rw [if_neg h0l]; omega
  intro i
  induction i using Nat.strong_induction_on with
  | _ i ih =>
    intro hi
    rcases hknd i hi with hg | ⟨l, hl⟩
    · -- gate node
      have ha := hcv_gate i hi hg
      have hapos : 0 < cv.getD i 0 := by
        rw [ha]
        have : (0 : Int) ≤ (gatesBefore nodes i : Int) := by positivity
        omega
      have hchk : ∀ c ∈ nodeChildren (nodes.getD i (Node.new_bool false)), c < i :=
        fun c hc => hpost i c hc
      have hchlen : ∀ c ∈ nodeChildren (nodes.getD i (Node.new_bool false)),
          c < nodes.length := fun c hc => Nat.lt_trans (hchk c hc) hi
      cases hnt : (nodes.getD i (Node.new_bool false)).ntype with
      | And ch =>
        have hchm : ∀ c ∈ ch, c < i := by
          intro c hc
          exact hchk c (by rw [nodeChildren, hnt]; exact hc)
        have hchml : ∀ c ∈ ch, c < nodes.length := by
          intro c hc
          exact hchlen c (by rw [nodeChildren, hnt]; exact hc)
        rw [evalIdx_and hpost hnt, evalLit_pos hapos]
        have hIH : ∀ c ∈ ch, evalLit σ (cv.getD c 0) =
            evalIdx nodes (fun v =>
              match alookup R v with
              | some j2 => σ j2
              | none => false) c :=
          fun c hc => ih c (hchm c hc) (hchml c hc)
        cases hA : σ (cv.getD i 0) with
        | true =>
          symm
          rw [List.all_eq_true]
          intro c hc
          have hclause := hsat [-(cv.getD i 0), cv.getD c 0]
            (blockOf_mem_blocks hi (by
              unfold blockOf
              rw [hnt]
              dsimp only
              refine List.mem_append.mpr (Or.inl ?_)
              exact List.mem_map_of_mem _ hc))
          rw [clauseHolds_pair, evalLit_neg_of_pos hapos, hA] at hclause
          simp only [Bool.not_true, Bool.false_or] at hclause
          rw [← hIH c hc]
          exact hclause
        | false =>
          symm
          rw [List.all_eq_false]
          have hclause := hsat (cv.getD i 0 :: ch.map (fun c => -(cv.getD c 0)))
            (blockOf_mem_blocks hi (by
              unfold blockOf
              rw [hnt]
              dsimp only
              refine List.mem_append.mpr (Or.inr ?_)
              simp))
          rw [clauseHolds_cons, evalLit_pos hapos, hA] at hclause
          simp only [Bool.false_or] at hclause
          unfold clauseHolds at hclause
          rw [List.any_eq_true] at hclause
          obtain ⟨y, hym, hyval⟩ := hclause
          obtain ⟨c, hcm, rfl⟩ := List.mem_map.mp hym
          refine ⟨c, hcm, ?_⟩
          rw [← hIH c hcm]
          rw [evalLit_neg (hcvnz c (hchml c hcm))] at hyval
          simp only [Bool.not_eq_true'] at hyval
          rw [hyval]
          simp
      | Or ch =>
        have hchm : ∀ c ∈ ch, c < i := by
          intro c hc
          exact hchk c (by rw [nodeChildren, hnt]; exact hc)
        have hchml : ∀ c ∈ ch, c < nodes.length := by
          intro c hc
          exact hchlen c (by rw [nodeChildren, hnt]; exact hc)
        rw [evalIdx_or hpost hnt, evalLit_pos hapos]
        have hIH : ∀ c ∈ ch, evalLit σ (cv.getD c 0) =
            evalIdx nodes (fun v =>
              match alookup R v with
              | some j2 => σ j2
              | none => false) c :=
          fun c hc => ih c (hchm c hc) (hchml c hc)
        cases hA : σ (cv.getD i 0) with
        | true =>
          symm
          rw [List.any_eq_true]
          have hclause := hsat ((-(cv.getD i 0)) :: ch.map (fun c => cv.getD c 0))
            (blockOf_mem_blocks hi (by
              unfold blockOf
              rw [hnt]
              dsimp only
              refine List.mem_append.mpr (Or.inr ?_)
              simp))
          rw [clauseHolds_cons, evalLit_neg_of_pos hapos, hA] at hclause
          simp only [Bool.not_true, Bool.false_or] at hclause
          unfold clauseHolds at hclause
          rw [List.any_eq_true] at hclause
          obtain ⟨y, hym, hyval⟩ := hclause
          obtain ⟨c, hcm, rfl⟩ := List.mem_map.mp hym
          exact ⟨c, hcm, by rw [← hIH c hcm]; exact hyval⟩
        | false =>
          symm
          rw [List.any_eq_false]
          intro c hc
          have hclause := hsat [cv.getD i 0, -(cv.getD c 0)]
            (blockOf_mem_blocks hi (by
              unfold blockOf
              rw [hnt]
              dsimp only
              refine List.mem_append.mpr (Or.inl ?_)
              exact List.mem_map_of_mem _ hc))
          rw [clauseHolds_pair, evalLit_pos hapos, hA] at hclause
          simp only [Bool.false_or] at hclause
          rw [evalLit_neg (hcvnz c (hchml c hc))] at hclause
          simp only [Bool.not_eq_true'] at hclause
          rw [← hIH c hc]
          simp only [Bool.not_eq_true]
          exact hclause
      | Literal l2 =>
        rw [isGate, hnt] at hg
        cases hg
      | True =>
        rw [isGate, hnt] at hg
        cases hg
      | False =>
        rw [isGate, hnt] at hg
        cases hg
    · -- literal node
      obtain ⟨j, hj, hcvv⟩ := hcv_lit i hi l hl
      rw [evalIdx_lit hl, hcvv]
      exact lit_corr hj (hrng _ _ hj)

theorem gateIdxAt_self {nodes : List Node} {cv : List Int} {V : Int}
    (hV0 : 0 ≤ V)
    (hcv_gate : ∀ i, i < nodes.length →
      isGate (nodes.getD i (Node.new_bool false)) = true →
      cv.getD i 0 = V + 1 + (gatesBefore nodes i : Int))
    {i : Nat} (hi : i < nodes.length)
    (hg : isGate (nodes.getD i (Node.new_bool false)) = true) :
    gateIdxAt nodes cv (cv.getD i 0) = some i := by
  unfold gateIdxAt
  have hpi : (isGate (nodes.getD i (Node.new_bool false))
      && (cv.getD i 0 == cv.getD i 0)) = true := by
    rw [hg]
    simp
  cases hfind : (List.range nodes.length).find?
      (fun i2 => isGate (nodes.getD i2 (Node.new_bool false))
        && (cv.getD i2 0 == cv.getD i 0)) with
  | none =>
    exfalso
    have := List.find?_eq_none.mp hfind i (List.mem_range.mpr hi)
    exact this hpi
  | some i0 =>
    have hp0 := List.find?_some hfind
    have hi0 : i0 < nodes.length := List.mem_range.mp (List.mem_of_find?_eq_some hfind)
    rw [Bool.and_eq_true, beq_iff_eq] at hp0
    obtain ⟨hg0, hcve⟩ := hp0
    have : i0 = i := by
      by_contra hne
      rcases Nat.lt_or_ge i0 i with hlt | hge
      · have := gatesBefore_strict nodes hlt (by omega) hg0
        rw [hcv_gate i0 hi0 hg0, hcv_gate i hi hg] at hcve
        omega
      · have hlt2 : i < i0 := by omega
        have := gatesBefore_strict nodes hlt2 (by omega) hg
        rw [hcv_gate i0 hi0 hg0, hcv_gate i hi hg] at hcve
        omega
    rw [this]

theorem gateIdxAt_none {nodes : List Node} {cv : List Int} {V j : Int}
    (hcv_gate : ∀ i, i < nodes.length →
      isGate (nodes.getD i (Node.new_bool false)) = true →
      cv.getD i 0 = V + 1 + (gatesBefore nodes i : Int))
    (hj : j ≤ V) :
    gateIdxAt nodes cv j = none := by
  unfold gateIdxAt
  rw [List.find?_eq_none]
  intro i2 hi2
  have hi2l : i2 < nodes.length := List.mem_range.mp hi2
  intro hp
  rw [Bool.and_eq_true, beq_iff_eq] at hp
  obtain ⟨hg2, hcve⟩ := hp
  rw [hcv_gate i2 hi2l hg2] at hcve
  have : (0 : Int) ≤ (gatesBefore nodes i2 : Int) := by positivity
  omega

theorem sigmaB_lit {nodes : List Node} {cv : List Int} {R : List (Int × Int)}
    {V : Int} {τ : Int → Bool}
    (hcv_gate : ∀ i, i < nodes.length →
      isGate (nodes.getD i (Node.new_bool false)) = true →
      cv.getD i 0 = V + 1 + (gatesBefore nodes i : Int))
    (hrng : ∀ v j, alookup R v = some j → 1 ≤ j ∧ j ≤ V)
    (hinj : ∀ v1 v2 j, alookup R v1 = some j → alookup R v2 = some j → v1 = v2)
    (hkeys : (R.map Prod.fst).Nodup)
    {w j : Int} (hj : alookup R w = some j) :
    sigmaB nodes cv (R.map (fun p => (p.2, p.1))) τ j = τ w := by
  unfold sigmaB
  rw [gateIdxAt_none hcv_gate (hrng _ _ hj).2]
  rw [lookup_invert hkeys hinj hj]

theorem lit_corrB {σB τ : Int → Bool} {l j : Int}
    (hσ : σB j = τ ((l.natAbs : Int))) (hj1 : 1 ≤ j) :
    evalLit σB (if 0 < l then j else -j) = evalLit τ l := by
  by_cases hl : 0 < l
  · rw [if_pos hl, evalLit_pos (by omega), evalLit_pos hl, hσ]
    congr 1
    omega
  · rw [if_neg hl, evalLit_neg_of_pos (by omega : (0 : Int) < j), hσ]
    unfold evalLit
    rw [if_neg hl]
    congr 2
    omega

theorem corrB (nodes : List Node) (cv : List Int) (R : List (Int × Int)) (V : Int)
    (τ : Int → Bool) (hpost : postOrd nodes) (hV0 : 0 ≤ V)
    (hcv_lit : ∀ i, i < nodes.length →
      ∀ l, (nodes.getD i (Node.new_bool false)).ntype = NodeType.Literal l →
      ∃ j, alookup R ((l.natAbs : Int)) = some j ∧
        cv.getD i 0 = if 0 < l then j else -j)
    (hcv_gate : ∀ i, i < nodes.length →
      isGate (nodes.getD i (Node.new_bool false)) = true →
      cv.getD i 0 = V + 1 + (gatesBefore nodes i : Int))
    (hknd : ∀ i, i < nodes.length →
      isGate (nodes.getD i (Node.new_bool false)) = true ∨
      ∃ l, (nodes.getD i (Node.new_bool false)).ntype = NodeType.Literal l)
    (hrng : ∀ v j, alookup R v = some j → 1 ≤ j ∧ j ≤ V)
    (hinj : ∀ v1 v2 j, alookup R v1 = some j → alookup R v2 = some j → v1 = v2)
    (hkeys : (R.map Prod.fst).Nodup) :
    ∀ i, i < nodes.length →
      evalLit (sigmaB nodes cv (R.map (fun p => (p.2, p.1))) τ) (cv.getD i 0)
        = evalIdx nodes τ i := by
  intro i hi
  rcases hknd i hi with hg | ⟨l, hl⟩
  · have hapos : 0 < cv.getD i 0 := by
      rw [hcv_gate i hi hg]
      have : (0 : Int) ≤ (gatesBefore nodes i : Int) := by positivity
      omega
    rw [evalLit_pos hapos]
    show (match gateIdxAt nodes cv (cv.getD i 0) with
      | some i2 => evalIdx nodes τ i2
      | none => match alookup (R.map (fun p => (p.2, p.1))) (cv.getD i 0) with
        | some v => τ v
        | none => false) = evalIdx nodes τ i
    rw [gateIdxAt_self hV0 hcv_gate hi hg]
  · obtain ⟨j, hj, hcvv⟩ := hcv_lit i hi l hl
    rw [evalIdx_lit hl, hcvv]
    exact lit_corrB (sigmaB_lit hcv_gate hrng hinj hkeys hj) (hrng _ _ hj).1

theorem blocksSatB (nodes : List Node) (cv : List Int) (V : Int)
    (σB τ : Int → Bool) (hpost : postOrd nodes) (hV0 : 0 ≤ V)
    (hcv_gate : ∀ i, i < nodes.length →
      isGate (nodes.getD i (Node.new_bool false)) = true →
      cv.getD i 0 = V + 1 + (gatesBefore nodes i : Int))
    (hcvnz : ∀ c, c < nodes.length → cv.getD c 0 ≠ 0)
    (hcorr : ∀ i, i < nodes.length →
      evalLit σB (cv.getD i 0) = evalIdx nodes τ i) :
    ∀ cl ∈ blocksUpTo nodes cv nodes.length, clauseHolds σB cl = true := by
  intro cl hcl
  unfold blocksUpTo at hcl
  rw [List.mem_join] at hcl
  obtain ⟨blk, hblk, hclb⟩ := hcl
  obtain ⟨i, hirange, rfl⟩ := List.mem_map.mp hblk
  have hi : i < nodes.length := List.mem_range.mp hirange
  have hchlen : ∀ c ∈ nodeChildren (nodes.getD i (Node.new_bool false)),
      c < nodes.length := fun c hc => Nat.lt_trans (hpost i c hc) hi
  unfold blockOf at hclb
  cases hnt : (nodes.getD i (Node.new_bool false)).ntype with
  | And ch =>
    rw [hnt] at hclb
    dsimp only at hclb
    have hg : isGate (nodes.getD i (Node.new_bool false)) = true := by
      rw [isGate, hnt]
    have hapos : 0 < cv.getD i 0 := by
      rw [hcv_gate i hi hg]
      have : (0 : Int) ≤ (gatesBefore nodes i : Int) := by positivity
      omega
    have hchml : ∀ c ∈ ch, c < nodes.length := by
      intro c hc
      exact hchlen c (by rw [nodeChildren, hnt]; exact hc)
    rcases List.mem_append.mp hclb with hmem | hmem
    · obtain ⟨c, hcm, rfl⟩ := List.mem_map.mp hmem
      rw [clauseHolds_pair, evalLit_neg (hcvnz i hi), hcorr i hi,
        hcorr c (hchml c hcm)]
      cases hval : evalIdx nodes τ i with
      | false => simp
      | true =>
        rw [evalIdx_and hpost hnt, List.all_eq_true] at hval
        rw [hval c hcm]
        simp
    · rw [List.mem_singleton] at hmem
      subst hmem
      rw [clauseHolds_cons, hcorr i hi]
      cases hval : evalIdx nodes τ i with
      | true => simp
      | false =>
        rw [evalIdx_and hpost hnt, List.all_eq_false] at hval
        obtain ⟨c, hcm, hcfalse⟩ := hval
        simp only [Bool.false_or]
        unfold clauseHolds
        rw [List.any_eq_true]
        refine ⟨-(cv.getD c 0), List.mem_map_of_mem _ hcm, ?_⟩
        rw [evalLit_neg (hcvnz c (hchml c hcm)), hcorr c (hchml c hcm)]
        rw [Bool.eq_false_iff.mpr hcfalse]
        simp
  | Or ch =>
    rw [hnt] at hclb
    dsimp only at hclb
    have hg : isGate (nodes.getD i (Node.new_bool false)) = true := by
      rw [isGate, hnt]
    have hapos : 0 < cv.getD i 0 := by
      rw [hcv_gate i hi hg]
      have : (0 : Int) ≤ (gatesBefore nodes i : Int) := by positivity
      omega
    have hchml : ∀ c ∈ ch, c < nodes.length := by
      intro c hc
      exact hchlen c (by rw [nodeChildren, hnt]; exact hc)
    rcases List.mem_append.mp hclb with hmem | hmem
    · obtain ⟨c, hcm, rfl⟩ := List.mem_map.mp hmem
      rw [clauseHolds_pair, hcorr i hi, evalLit_neg (hcvnz c (hchml c hcm)),
        hcorr c (hchml c hcm)]
      cases hval : evalIdx nodes τ c with
      | false => simp
      | true =>
        have : evalIdx nodes τ i = true := by
          rw [evalIdx_or hpost hnt, List.any_eq_true]
          exact ⟨c, hcm, hval⟩
        rw [this]
        simp
    · rw [List.mem_singleton] at hmem
      subst hmem
      rw [clauseHolds_cons, evalLit_neg (hcvnz i hi), hcorr i hi]
      cases hval : evalIdx nodes τ i with
      | false => simp
      | true =>
        rw [evalIdx_or hpost hnt, List.any_eq_true] at hval
        obtain ⟨c, hcm, hctrue⟩ := hval
        simp only [Bool.not_true, Bool.false_or]
        unfold clauseHolds
        rw [List.any_eq_true]
        refine ⟨cv.getD c 0, List.mem_map_of_mem _ hcm, ?_⟩
        rw [hcorr c (hchml c hcm)]
        exact hctrue
  | Literal l =>
    rw [hnt] at hclb
    dsimp only at hclb
    cases hclb
  | True =>
    rw [hnt] at hclb
    dsimp only at hclb
    cases hclb
  | False =>
    rw [hnt] at hclb
    dsimp only at hclb
    cases hclb

theorem cv_nonzero (nodes : List Node) (cv : List Int) (R : List (Int × Int))
    (V : Int) (hV0 : 0 ≤ V)
    (hcv_lit : ∀ i, i < nodes.length →
      ∀ l, (nodes.getD i (Node.new_bool false)).ntype = NodeType.Literal l →
      ∃ j, alookup R ((l.natAbs : Int)) = some j ∧
        cv.getD i 0 = if 0 < l then j else -j)
    (hcv_gate : ∀ i, i < nodes.length →
      isGate (nodes.getD i (Node.new_bool false)) = true →
      cv.getD i 0 = V + 1 + (gatesBefore nodes i : Int))
    (hknd : ∀ i, i < nodes.length →
      isGate (nodes.getD i (Node.new_bool false)) = true ∨
      ∃ l, (nodes.getD i (Node.new_bool false)).ntype = NodeType.Literal l)
    (hrng : ∀ v j, alookup R v = some j → 1 ≤ j) :
    ∀ c, c < nodes.length → cv.getD c 0 ≠ 0 := by
  intro c hc
  rcases hknd c hc with hg | ⟨l, hl⟩
  · rw [hcv_gate c hc hg]
    have : (0 : Int) ≤ (gatesBefore nodes c : Int) := by positivity
    omega
  · obtain ⟨j, hj, hcvv⟩ := hcv_lit c hc l hl
    have := hrng _ _ hj
    rw [hcvv]
    by_cases h0l : 0 < l
    · rw [if_pos h0l]; omega
    · rw [if_neg h0l]; omega

theorem pullAssign_swap (R : List (Int × Int)) (σ : Int → Bool) :
    pullAssign (R.map (fun p => (p.2, p.1))) σ =
      fun v =>
        match alookup R v with
        | some j => σ j
        | none => false := by
  funext v
  unfold pullAssign
  rw [rlookup_swap]

theorem clause_renumber_A (σ : Int → Bool) (R : List (Int × Int))
    (hrng : ∀ v j, alookup R v = some j → 1 ≤ j) :
    ∀ (C Cmap : List Int),
      omapM (fun f => (alookup R ((f.natAbs : Int))).map
        (fun r => if 0 < f then r else -r)) C = some Cmap →
      clauseHolds σ Cmap = clauseHolds (fun v =>
        match alookup R v with
        | some j2 => σ j2
        | none => false) C := by
  intro C
  induction C with
  | nil =>
    intro Cmap h
    cases h
    rfl
  | cons f C2 ih =>
    intro Cmap h
    unfold omapM at h
    cases hf : alookup R ((f.natAbs : Int)) with
    | none =>
      rw [hf] at h
      exact absurd h (by simp)
    | some r =>
      rw [hf] at h
      simp only [Option.map_some'] at h
      cases hrest : omapM (fun f => (alookup R ((f.natAbs : Int))).map
          (fun r => if 0 < f then r else -r)) C2 with
      | none =>
        rw [hrest] at h
        exact absurd h (by simp)
      | some rest =>
        rw [hrest] at h
        cases h
        rw [clauseHolds_cons, clauseHolds_cons]
        rw [lit_corr hf (hrng _ _ hf), ih rest hrest]

theorem clause_renumber_B (σB τ : Int → Bool) (R : List (Int × Int))
    (hrng : ∀ v j, alookup R v = some j → 1 ≤ j)
    (hlit : ∀ w j, alookup R w = some j → σB j = τ w) :
    ∀ (C Cmap : List Int),
      omapM (fun f => (alookup R ((f.natAbs : Int))).map
        (fun r => if 0 < f then r else -r)) C = some Cmap →
      clauseHolds σB Cmap = clauseHolds τ C := by
  intro C
  induction C with
  | nil =>
    intro Cmap h
    cases h
    rfl
  | cons f C2 ih =>
    intro Cmap h
    unfold omapM at h
    cases hf : alookup R ((f.natAbs : Int)) with
    | none =>
      rw [hf] at h
      exact absurd h (by simp)
    | some r =>
      rw [hf] at h
      simp only [Option.map_some'] at h
      cases hrest : omapM (fun f => (alookup R ((f.natAbs : Int))).map
          (fun r => if 0 < f then r else -r)) C2 with
      | none =>
        rw [hrest] at h
        exact absurd h (by simp)
      | some rest =>
        rw [hrest] at h
        cases h
        rw [clauseHolds_cons, clauseHolds_cons]
        rw [lit_corrB (hlit _ _ hf) (hrng _ _ hf), ih rest hrest]

/-- C2: for every starting vertex `S` whose cached support agrees with the
lowered subcircuit (the consistency invariant, hypothesis `hV`) and every
optional extra clause, the CNF emitted by `transform_to_cnf` is
equisatisfiable with the subcircuit conjoined with the clause: every CNF
model, translated through the inverse renumber map, is a model of the
subcircuit that satisfies the clause, and conversely every such circuit model
arises as the projection of a CNF model agreeing with it on the compact
variables through the inverse map. -/
theorem c2_transform_to_cnf_correct
    (g : IntermediateGraph) (S : Nat) (clauseOpt : Option (List Int))
    (hdr : Int × Nat) (cnf : List (List Int)) (inv : List (Int × Int))
    (nodes : List Node) (lits : List (Int × Nat)) (trues : List Nat)
    (hreb : rebuild g (some S) = some (nodes, lits, trues))
    (ht : transform_to_cnf g S clauseOpt = some (hdr, cnf, inv))
    (hV : supportVarCount g S = some ((nodeVars nodes).toFinset.card)) :
    (∀ σ : Int → Bool, evalCnf σ cnf = true →
        evalCircuit nodes (pullAssign inv σ) = true ∧
        extraHolds clauseOpt (pullAssign inv σ) = true) ∧
    (∀ τ : Int → Bool, evalCircuit nodes τ = true → extraHolds clauseOpt τ = true →
        ∃ σ : Int → Bool, evalCnf σ cnf = true ∧
          ∀ j v, alookup inv j = some v → σ j = τ v) := by
  simp only [transform_to_cnf, hreb, hV] at ht
  split at ht
  · exact absurd ht (by simp)
  · rename_i st hloop
    split at ht
    · exact absurd ht (by simp)
    · rename_i hlen
      have hpost := postOrd_of_rebuild g (some S) hreb
      have hInvF : TLoopInv nodes (((nodeVars nodes).toFinset.card : Int))
          nodes.length st := by
        refine tLoop_invariant nodes _ hpost nodes 0 _ st ?_ (Nat.zero_le _)
          (tLoopInv_init nodes _) hloop
        rw [List.drop_zero]
      have hV0 : (0 : Int) ≤ ((nodeVars nodes).toFinset.card : Int) := by positivity
      have htakelen : nodes.take nodes.length = nodes := by simp
      have hlitc : st.lit_counter = 1 + ((nodeVars nodes).toFinset.card : Int) := by
        have := hInvF.litc
        rw [htakelen] at this
        exact this
      have hrngL : ∀ v j, alookup st.re_index_mapping v = some j → 1 ≤ j :=
        fun v j hj => (hInvF.rng v j hj).1
      have hrng2 : ∀ v j, alookup st.re_index_mapping v = some j →
          1 ≤ j ∧ j ≤ ((nodeVars nodes).toFinset.card : Int) := by
        intro v j hj
        have h1 := hInvF.rng v j hj
        rw [hlitc] at h1
        omega
      have hknd : ∀ i, i < nodes.length →
          isGate (nodes.getD i (Node.new_bool false)) = true ∨
          ∃ l, (nodes.getD i (Node.new_bool false)).ntype = NodeType.Literal l :=
        fun i hi => hInvF.knd i hi
      have hcv_lit := hInvF.cv_lit
      have hcv_gate := hInvF.cv_gate
      have hcvnz := cv_nonzero nodes st.clause_var st.re_index_mapping _ hV0
        hcv_lit hcv_gate hknd hrngL
      have hblocks : st.cnf = blocksUpTo nodes st.clause_var nodes.length :=
        hInvF.cnfsh
      have hroot_lt : nodes.length - 1 < nodes.length := by omega
      cases clauseOpt with
      | none =>
        simp only [Option.some.injEq, Prod.mk.injEq] at ht
        obtain ⟨-, hcnf, hinv⟩ := ht
        constructor
        · intro σ hσ
          have hall : ∀ cl ∈ cnf, clauseHolds σ cl = true :=
            List.all_eq_true.mp hσ
          have hsatBlocks : ∀ cl ∈ blocksUpTo nodes st.clause_var nodes.length,
              clauseHolds σ cl = true := by
            intro cl hcl
            refine hall cl ?_
            rw [← hcnf]
            exact List.mem_append.mpr (Or.inl (hblocks ▸ hcl))
          have hrootcl : evalLit σ
              (st.clause_var.getD (nodes.length - 1) 0) = true := by
            have := hall [st.clause_var.getD (nodes.length - 1) 0] (by
              rw [← hcnf]
              exact List.mem_append.mpr (Or.inr (List.mem_singleton.mpr rfl)))
            rw [clauseHolds_single] at this
            exact this
          constructor
          · rw [← hinv, pullAssign_swap]
            rw [evalCircuit_eq_evalIdx hpost hlen]
            rw [← corrA nodes st.clause_var st.re_index_mapping _ σ hpost hV0
              hcv_lit hcv_gate hknd hrngL hsatBlocks (nodes.length - 1) hroot_lt]
            exact hrootcl
          · rfl
        · intro τ hcirc _
          refine ⟨sigmaB nodes st.clause_var
            (st.re_index_mapping.map (fun p => (p.2, p.1))) τ, ?_, ?_⟩
          · have hcorr := corrB nodes st.clause_var st.re_index_mapping _ τ
              hpost hV0 hcv_lit hcv_gate hknd hrng2 hInvF.inj hInvF.keys
            have hsatB := blocksSatB nodes st.clause_var _ _ τ hpost hV0
              hcv_gate hcvnz hcorr
            rw [← hcnf]
            refine List.all_eq_true.mpr ?_
            intro cl hcl
            rcases List.mem_append.mp hcl with hcl | hcl
            · exact hsatB cl (hblocks ▸ hcl)
            · rw [List.mem_singleton.mp hcl, clauseHolds_single]
              rw [hcorr (nodes.length - 1) hroot_lt]
              rw [← evalCircuit_eq_evalIdx hpost hlen]
              exact hcirc
          · intro j v hjv
            rw [← hinv] at hjv
            have hlook := lookup_invert_rev hInvF.keys hjv
            exact sigmaB_lit hcv_gate hrng2 hInvF.inj hInvF.keys hlook
      | some C =>
        dsimp only at ht
        split at ht
        · exact absurd ht (by simp)
        · rename_i Cmap homap
          simp only [Option.some.injEq, Prod.mk.injEq] at ht
          obtain ⟨-, hcnf, hinv⟩ := ht
          constructor
          · intro σ hσ
            have hall : ∀ cl ∈ cnf, clauseHolds σ cl = true :=
              List.all_eq_true.mp hσ
            have hsatBlocks : ∀ cl ∈ blocksUpTo nodes st.clause_var nodes.length,
                clauseHolds σ cl = true := by
              intro cl hcl
              refine hall cl ?_
              rw [← hcnf]
              exact List.mem_append.mpr (Or.inl
                (List.mem_append.mpr (Or.inl (hblocks ▸ hcl))))
            have hrootcl : evalLit σ
                (st.clause_var.getD (nodes.length - 1) 0) = true := by
              have := hall [st.clause_var.getD (nodes.length - 1) 0] (by
                rw [← hcnf]
                exact List.mem_append.mpr (Or.inl
                  (List.mem_append.mpr (Or.inr (List.mem_singleton.mpr rfl)))))
              rw [clauseHolds_single] at this
              exact this
            have hCmapcl : clauseHolds σ Cmap = true := by
              refine hall Cmap ?_
              rw [← hcnf]
              exact List.mem_append.mpr (Or.inr (List.mem_singleton.mpr rfl))
            constructor
            · rw [← hinv, pullAssign_swap]
              rw [evalCircuit_eq_evalIdx hpost hlen]
              rw [← corrA nodes st.clause_var st.re_index_mapping _ σ hpost hV0
                hcv_lit hcv_gate hknd hrngL hsatBlocks (nodes.length - 1) hroot_lt]
              exact hrootcl
            · show clauseHolds (pullAssign inv σ) C = true
              rw [← hinv, pullAssign_swap]
              rw [← clause_renumber_A σ st.re_index_mapping hrngL C Cmap homap]
              exact hCmapcl
          · intro τ hcirc hextra
            have hextra2 : clauseHolds τ C = true := hextra
            refine ⟨sigmaB nodes st.clause_var
              (st.re_index_mapping.map (fun p => (p.2, p.1))) τ, ?_, ?_⟩
            · have hcorr := corrB nodes st.clause_var st.re_index_mapping _ τ
                hpost hV0 hcv_lit hcv_gate hknd hrng2 hInvF.inj hInvF.keys
              have hsatB := blocksSatB nodes st.clause_var _ _ τ hpost hV0
                hcv_gate hcvnz hcorr
              rw [← hcnf]
              refine List.all_eq_true.mpr ?_
              intro cl hcl
              rcases List.mem_append.mp hcl with hcl | hcl
              · rcases List.mem_append.mp hcl with hcl | hcl
                · exact hsatB cl (hblocks ▸ hcl)
                · rw [List.mem_singleton.mp hcl, clauseHolds_single]
                  rw [hcorr (nodes.length - 1) hroot_lt]
                  rw [← evalCircuit_eq_evalIdx hpost hlen]
                  exact hcirc
              · rw [List.mem_singleton.mp hcl]
                rw [clause_renumber_B _ τ st.re_index_mapping hrngL
                  (fun w j hj => sigmaB_lit hcv_gate hrng2 hInvF.inj hInvF.keys hj)
                  C Cmap homap]
                exact hextra2
            · intro j v hjv
              rw [← hinv] at hjv
              have hlook := lookup_invert_rev hInvF.keys hjv
              exact sigmaB_lit hcv_gate hrng2 hInvF.inj hInvF.keys hlook

/-- Witness for C2: the equisatisfiability correspondence instantiated on
`G3` (the circuit `x1 ∧ x2`) with extra clause `[1]`, whose emitted CNF is
`[[-3,1],[-3,2],[3,-1,-2],[3],[2]]` with inverse renumber map
`[(1,2),(2,1)]`. -/
theorem c2_transform_to_cnf_correct_witness :
    (∀ σ : Int → Bool,
        evalCnf σ [[-3, 1], [-3, 2], [3, -1, -2], [3], [2]] = true →
        evalCircuit N3 (pullAssign [(1, 2), (2, 1)] σ) = true ∧
        extraHolds (some [1]) (pullAssign [(1, 2), (2, 1)] σ) = true) ∧
    (∀ τ : Int → Bool, evalCircuit N3 τ = true →
        extraHolds (some [1]) τ = true →
        ∃ σ : Int → Bool,
          evalCnf σ [[-3, 1], [-3, 2], [3, -1, -2], [3], [2]] = true ∧
          ∀ j v, alookup [(1, 2), (2, 1)] j = some v → σ j = τ v) :=
  c2_transform_to_cnf_correct G3 0 (some [1]) (3, 5)
    [[-3, 1], [-3, 2], [3, -1, -2], [3], [2]] [(1, 2), (2, 1)]
    N3 [(1, 1), (2, 0)] [] (by rfl) (by rfl) (by rfl)

end Ddnnf
